import Mathlib

/-!
Verification of the `gitree` tree-construction engine.

The development shallowly embeds `src/gitree/services/output_formatters.py`
(`build_tree_data`, `format_json`) over an explicit filesystem model.
Components of the repository that are imported there but whose source files
are not available (`gitree/utilities/gitignore.py`, the entry lister
`gitree/services/list_enteries.py`) and the external libraries it calls
(`pathspec` gitwildmatch matching, Python's `json` and `fnmatch`) are
modelled from the specification's component contracts; each such definition
says so in its doc comment.
-/

namespace Gitree

/-! ## Filesystem model

A filesystem entry is a regular file (with its text content as a list of
lines), a directory (with a listability flag: `false` models `iterdir`
raising `PermissionError`/`OSError`), or `other`: a path that is neither a
regular file nor a directory at stat time (broken symbolic link, special
file, or a nonexistent path), for which Python's `Path.is_file()` and
`Path.is_dir()` both return `False`. -/
inductive FS where
  | file (name : String) (lines : List String)
  | dir (name : String) (listable : Bool) (children : List FS)
  | other (name : String)

/-- `Path.name`: the base name of the entry. -/
def FS.name : FS → String
  | .file n _ => n
  | .dir n _ _ => n
  | .other n => n

/-- `Path.is_file()` on the entry. -/
def FS.isFile : FS → Bool
  | .file _ _ => true
  | _ => false

/-- `Path.is_dir()` on the entry. -/
def FS.isDir : FS → Bool
  | .dir _ _ _ => true
  | _ => false

/-! ## Glob matching

Modelled from the spec: the Pattern Matcher contract (spec section 4.1)
for the `pathspec` gitwildmatch subset used by the program: `*` matches
within one path segment, `?` matches one character, `**` matches across
segments, a trailing `/` restricts a pattern to directories, a pattern
without `/` is matched against the base name, rules are evaluated in
accumulation order with the last matching rule winning and a leading `!`
negating. -/

/-- One-segment glob matching: `*` matches any run of characters inside the
segment (any suffix continuation), `?` any single character, everything
else literally. -/
def globMatch : List Char → List Char → Bool
  | [], s => s.isEmpty
  | '?' :: ps, s =>
    (match s with
     | [] => false
     | _ :: ss => globMatch ps ss)
  | '*' :: ps, s => s.tails.any (fun t => globMatch ps t)
  | c :: ps, s =>
    (match s with
     | [] => false
     | d :: ss => c == d && globMatch ps ss)

/-- Split a character list into `/`-separated segments. -/
def splitSegs : List Char → List (List Char)
  | [] => [[]]
  | '/' :: rest => [] :: splitSegs rest
  | c :: rest =>
    match splitSegs rest with
    | seg :: segs => (c :: seg) :: segs
    | [] => [[c]]

/-- Match a list of pattern segments against a list of path segments;
a `**` pattern segment matches any number of path segments. -/
def segsMatch : List (List Char) → List (List Char) → Bool
  | [], segs => segs.isEmpty
  | p :: ps, segs =>
    if p = ['*', '*'] then
      segs.tails.any (fun t => segsMatch ps t)
    else
      match segs with
      | [] => false
      | s :: ss => globMatch p s && segsMatch ps ss

/-- `c` does not occur in the character list. -/
def noChar (c : Char) (l : List Char) : Bool := l.all (fun d => d != c)

/-- Character-level `startswith` (Python `str.startswith`). -/
def startsWithChars : List Char → List Char → Bool
  | [], _ => true
  | _ :: _, [] => false
  | c :: cs, d :: ds => c == d && startsWithChars cs ds

/-- `s.startswith (pre)` on strings, at character level. -/
def strStartsWith (s pre : String) : Bool := startsWithChars pre.data s.data

/-- Python `str.strip()`: remove leading and trailing whitespace. -/
def strTrim (s : String) : String :=
  String.mk (((s.data.dropWhile Char.isWhitespace).reverse.dropWhile
    Char.isWhitespace).reverse)

/-- Lexicographic comparison of character lists by code point, as Python
compares strings. -/
def charListLE : List Char → List Char → Bool
  | [], _ => true
  | _ :: _, [] => false
  | c :: cs, d :: ds => c.val < d.val || (c == d && charListLE cs ds)

/-- One parsed gitignore-style rule: negation flag, directory-only flag,
pattern segments. -/
structure Rule where
  negated : Bool
  dirOnly : Bool
  segs : List (List Char)

/-- Strip a leading negation marker `!`. -/
def splitNeg : List Char → Bool × List Char
  | '!' :: rest => (true, rest)
  | cs => (false, cs)

/-- Strip a trailing `/` (the directory-only marker on a pattern, or the
directory form of a queried path). -/
def splitDirOnly (cs : List Char) : Bool × List Char :=
  if cs ≠ [] ∧ cs.getLast? = some '/' then (true, cs.dropLast) else (false, cs)

/-- Modelled from the spec: parse one accumulated pattern line into a rule
(leading `!` negates, trailing `/` restricts to directories, the remainder
is split into `/`-separated glob segments). -/
def parseRule (pat : String) : Rule :=
  ⟨(splitNeg pat.data).1, (splitDirOnly (splitNeg pat.data).2).1,
    splitSegs (splitDirOnly (splitNeg pat.data).2).2⟩

/-- Modelled from the spec: whether one rule matches a relative posix path.
`isDirForm` records that the queried path carried a trailing separator
(the directory form); a directory-only rule requires it. A pattern without
`/` (a single segment) is matched against the path's base name, a pattern
with `/` against the whole segment list. -/
def ruleMatches (r : Rule) (pathSegs : List (List Char)) (isDirForm : Bool) : Bool :=
  (!r.dirOnly || isDirForm) &&
    (match r.segs with
     | [p] => match pathSegs.getLast? with
       | some base => globMatch p base
       | none => false
     | ps => segsMatch ps pathSegs)

/-- Evaluate the rules in accumulation order, overwriting the running
verdict on every match. -/
def evalRules (segs : List (List Char)) (isDirForm : Bool) :
    Option Bool → List String → Option Bool
  | acc, [] => acc
  | acc, pat :: ps =>
    evalRules segs isDirForm
      (if ruleMatches (parseRule pat) segs isDirForm
       then some (!(parseRule pat).negated) else acc) ps

/-- Modelled from the spec: `pathspec.PathSpec.match_file` on the compiled
pattern list — iterate the rules in accumulation order, overwrite the
running verdict on every match, report whether the final verdict is a
non-negated match. A trailing `/` on the queried path selects the
directory form. -/
def match_file (patterns : List String) (path : String) : Bool :=
  decide (evalRules (splitSegs (splitDirOnly path.data).2)
    (splitDirOnly path.data).1 none patterns = some true)

/-- Modelled from the spec (corroborated by `GitIgnoreMatcher.is_ignored` in
`src/structure.py`): a path is ignored when the accumulated patterns match
its bare relative posix path, or — for a directory — the path with a
trailing separator appended. -/
def isIgnored (patterns : List String) (rel : String) (isDir : Bool) : Bool :=
  match_file patterns rel || (isDir && match_file patterns (rel ++ "/"))

/-! ## fnmatch (extra exclude globs)

Modelled from Python's `fnmatch.fnmatchcase` as used by the entry lister
(corroborated by `src/structure.py`): plain glob over the whole string,
with `*` matching any run of characters (including `/`) and `?` any single
character. -/
def fnmatchcase (s pat : String) : Bool := globMatch pat.data s.data

/-! ## Gitignore line rewriting (`build_tree_data.rec`, lines 50-57)

Each non-blank, non-comment line of a `.gitignore` is rewritten
root-relative: strip a leading `!`, strip leading `/` characters, prepend
the defining directory's prefix (`rel_dir + "/"`, empty for the root), and
re-attach the `!`. -/
def rewriteGitignoreLine (pfxPath : String) (line : String) : Option String :=
  let line := strTrim line
  if line = "" || strStartsWith line "#" then none
  else
    let neg := strStartsWith line "!"
    let pat := if neg then line.drop 1 else line
    let pat := pfxPath ++ String.mk (pat.data.dropWhile (fun c => c == '/'))
    some (if neg then "!" ++ pat else pat)

/-- Join root-relative path segments with `/` (posix form). -/
def joinSegs : List String → String
  | [] => ""
  | [s] => s
  | s :: rest => s ++ "/" ++ joinSegs rest

/-- The `prefix_path` of a directory given its root-relative segments:
empty for the root itself, otherwise the posix relative path followed by
`/`. -/
def pfxOf (relPath : List String) : String :=
  match relPath with
  | [] => ""
  | _ => joinSegs relPath ++ "/"

/-- The `.gitignore` file directly inside a directory, if present as a
regular file among the directory's entries (`(dirpath / ".gitignore").is_file()`). -/
def gitignoreLines (entries : List FS) : Option (List String) :=
  entries.findSome? fun e =>
    match e with
    | .file n lines => if n = ".gitignore" then some lines else none
    | _ => none

/-- The rewritten local rules a directory contributes (the loop of
`build_tree_data.rec`, lines 50-57): nothing when its `.gitignore` is
absent, otherwise each surviving line rewritten with the directory's
prefix, in file order. -/
def localRules (relPath : List String) (entries : List FS) : List String :=
  match gitignoreLines entries with
  | none => []
  | some lines => lines.filterMap (rewriteGitignoreLine (pfxOf relPath))

/-- Modelled from the spec: `GitIgnoreMatcher.within_depth`
(`gitree/utilities/gitignore.py`, not in src): a directory is within the
gitignore depth bound when the bound is unset or the directory's depth
from the root does not exceed it (inclusive). -/
def within_depth (gitignoreDepth : Option Nat) (curDepth : Nat) : Bool :=
  match gitignoreDepth with
  | none => true
  | some b => curDepth ≤ b

/-- The pattern list handed to a directory's children
(`build_tree_data.rec`, lines 44-57): the inherited list, extended — when
gitignore matching is enabled and the directory is within the gitignore
depth bound — with the directory's own rewritten rules. The inherited
list is never mutated: the result is a fresh list with the inherited one
as a prefix. -/
def extendPatterns (respectGitignore : Bool) (gitignoreDepth : Option Nat)
    (relPath : List String) (curDepth : Nat) (patterns : List String)
    (entries : List FS) : List String :=
  if respectGitignore && within_depth gitignoreDepth curDepth then
    patterns ++ localRules relPath entries
  else
    patterns

/-! ## Entry lister

Modelled from the spec: the Entry Lister contract (spec section 4.3,
`gitree/services/list_enteries.py`, not in src; steps 1-4 and 6 are
corroborated by `list_entries` in `src/structure.py`): list children
(a permission error yields an empty listing), drop hidden entries unless
`show_all`, drop gitignore matches, drop extra-exclude glob matches
(tested against both the root-relative posix path and the bare name),
optionally drop plain files, sort directories first then case-insensitive
by name, and apply the item cap, reporting the number of items removed. -/

/-- Python `str.lower()` of a name, at character level (ASCII model). -/
def lowerName (e : FS) : List Char := e.name.data.map Char.toLower

/-- The Python sort key `(x.is_file(), x.name.lower())` compared
lexicographically: directories (and non-files) before files, then
case-insensitive alphabetical. -/
def entryLE (a b : FS) : Bool :=
  (!a.isFile && b.isFile) || (a.isFile == b.isFile && charListLE (lowerName a) (lowerName b))

/-- Stable insertion of one entry into a sorted list. -/
def orderedInsert (a : FS) : List FS → List FS
  | [] => [a]
  | b :: l => if entryLE a b then a :: b :: l else b :: orderedInsert a l

/-- Stable sort by `entryLE` (the unique stable sort, hence the result of
Python's stable `list.sort`). -/
def sortEntries : List FS → List FS
  | [] => []
  | a :: l => orderedInsert a (sortEntries l)

/-- Hidden-file policy (step 2): unless `show_all`, drop entries whose name
starts with `.`. -/
def hiddenStep (show_all : Bool) (entries : List FS) : List FS :=
  if show_all then entries else entries.filter (fun e => !strStartsWith e.name ".")

/-- Gitignore filter (step 3): drop entries the accumulated pattern context
reports as ignored. -/
def ignoreStep (dirRelPath : List String) (patterns : List String)
    (entries : List FS) : List FS :=
  entries.filter
    (fun e => !isIgnored patterns (joinSegs (dirRelPath ++ [e.name])) e.isDir)

/-- Extra-exclude filter (step 4): drop entries matching any extra glob,
tested against both the root-relative posix path and the bare name. -/
def extraStep (dirRelPath : List String) (extra_ignores : List String)
    (entries : List FS) : List FS :=
  entries.filter
    (fun e => !extra_ignores.any
      (fun pat => fnmatchcase (joinSegs (dirRelPath ++ [e.name])) pat
        || fnmatchcase e.name pat))

/-- No-files filter (step 5): when set, drop plain-file entries. -/
def noFilesStep (no_files : Bool) (entries : List FS) : List FS :=
  if no_files then entries.filter (fun e => !e.isFile) else entries

/-- Steps 2-5 of the Entry Lister in order. -/
def filterEntries (dirRelPath : List String) (patterns : List String)
    (show_all : Bool) (extra_ignores : List String) (no_files : Bool)
    (entries : List FS) : List FS :=
  noFilesStep no_files
    (extraStep dirRelPath extra_ignores
      (ignoreStep dirRelPath patterns
        (hiddenStep show_all entries)))

/-- Step 7 of the Entry Lister: apply the item cap and report the number of
items removed. -/
def applyCap (max_items : Option Nat) (sorted : List FS) : List FS × Nat :=
  match max_items with
  | some m => if sorted.length > m then (sorted.take m, sorted.length - m) else (sorted, 0)
  | none => (sorted, 0)

/-- Modelled from the spec: the Entry Lister. Returns the filtered, sorted,
capped entries together with the truncation count. `listable = false`
models `iterdir` raising a permission error. -/
def list_entries (dirRelPath : List String) (patterns : List String)
    (show_all : Bool) (extra_ignores : List String) (max_items : Option Nat)
    (no_files : Bool) (listable : Bool) (entries : List FS) : List FS × Nat :=
  if !listable then ([], 0)
  else applyCap max_items
    (sortEntries
      (filterEntries dirRelPath patterns show_all extra_ignores no_files entries))

/-- The absolute path string `str(entry.absolute())` of an entry reached at
root-relative segments `rel`: the root's absolute path, a separator, and
the joined relative path. -/
def absOf (rootAbs : String) (rel : List String) : String :=
  joinSegs (rootAbs :: rel)

/-- The whitelist narrowing of `build_tree_data.rec` (lines 74-87): when a
whitelist is supplied, a file entry survives only if its absolute path is
a member, a directory entry only if some whitelisted path string starts
with the directory's absolute path string; any other entry falls through
and survives. -/
def whitelistFilter (whitelist : Option (List String)) (rootAbs : String)
    (dirRelPath : List String) (entries : List FS) : List FS :=
  match whitelist with
  | none => entries
  | some w => entries.filter fun e =>
      let entryPath := absOf rootAbs (dirRelPath ++ [e.name])
      if e.isFile then w.contains entryPath
      else if e.isDir then w.any (fun f => strStartsWith f entryPath)
      else true

/-! ## Tree nodes

One node of the hierarchical structure `build_tree_data` produces: the
dictionaries `{"name": .., "type": "file"}`, `{"name": .., "type":
"directory", "children": [..]}` and `{"name": .., "type": "truncated"}`.
Only directory nodes carry a `children` key. -/
inductive TreeNode where
  | file (name : String)
  | dir (name : String) (children : List TreeNode)
  | truncated (name : String)

/-- The `name` value of a node. -/
def TreeNode.name : TreeNode → String
  | .file n => n
  | .dir n _ => n
  | .truncated n => n

/-- Whether a node is the truncation marker. -/
def TreeNode.isTruncated : TreeNode → Bool
  | .truncated _ => true
  | _ => false

/-- The options bundle handed to `build_tree_data`. -/
structure Config where
  depth : Option Nat
  show_all : Bool
  extra_ignores : List String
  respect_gitignore : Bool
  gitignore_depth : Option Nat
  max_items : Option Nat
  no_files : Bool
  whitelist : Option (List String)

/-- The depth guard of `build_tree_data.rec` (lines 41-42):
`depth is not None and current_depth >= depth`. -/
def depthReached (depth : Option Nat) (curDepth : Nat) : Bool :=
  match depth with
  | some n => decide (curDepth ≥ n)
  | none => false

/-! ## Tree builder -/

mutual
/-- Height of a filesystem entry: 0 for leaves, one more than the height of
the children for a directory. Used only to seed the recursion bound of
`recBuild`; `recBuild_fuel_irrelevant` shows any sufficient bound gives the
same tree. -/
def FS.height : FS → Nat
  | .file _ _ => 0
  | .other _ => 0
  | .dir _ _ cs => FS.heightL cs + 1

/-- Maximum height of a list of entries. -/
def FS.heightL : List FS → Nat
  | [] => 0
  | e :: es => max (FS.height e) (FS.heightL es)
end

/-- The inner recursion `rec` of `build_tree_data` (lines 39-112): guard on
the depth bound, extend the inherited patterns with the directory's own
`.gitignore` rules, list and filter the entries, apply the whitelist
narrowing, emit a node per surviving file or directory entry (recursing
into directories with the extended patterns), and append a truncation
marker when the entry lister reported one. The extra `fuel` argument is a
structural recursion bound: `build_tree_data` seeds it with the height of
the root, which always suffices (`recBuild_fuel_irrelevant`); the source
recursion needs no bound because the filesystem is finite. -/
def recBuild (cfg : Config) (rootAbs : String) : Nat → List String → Nat →
    List String → Bool → List FS → List TreeNode
  | 0, _, _, _, _, _ => []
  | fuel + 1, relPath, curDepth, patterns, listable, entries =>
    if depthReached cfg.depth curDepth then []
    else
      let pats := extendPatterns cfg.respect_gitignore cfg.gitignore_depth
        relPath curDepth patterns entries
      let st := list_entries relPath pats cfg.show_all cfg.extra_ignores
        cfg.max_items cfg.no_files listable entries
      let sel := whitelistFilter cfg.whitelist rootAbs relPath st.1
      let kids := (sel.map (fun e =>
        match e with
        | FS.file n _ => [TreeNode.file n]
        | FS.dir n lb cs =>
          [TreeNode.dir n (recBuild cfg rootAbs fuel (relPath ++ [n]) (curDepth + 1) pats lb cs)]
        | FS.other _ => [])).flatten
      kids ++ (if st.2 > 0 then
        [TreeNode.truncated ("... and " ++ toString st.2 ++ " more items")] else [])

/-- `build_tree_data` (lines 12-117): the root node is always a directory
node carrying the root's base name; its children are computed by the
recursion only when the root is a directory on disk. -/
def build_tree_data (cfg : Config) (rootAbs : String) (root : FS) : TreeNode :=
  TreeNode.dir root.name
    (match root with
     | .dir _ lb cs => recBuild cfg rootAbs (FS.heightL cs + 1) [] 0 [] lb cs
     | _ => [])


/-! ## Observable predicates over built trees -/

/-- The `children` sequence of a node (empty for non-directories, which
carry no `children` key). -/
def TreeNode.childrenOf : TreeNode → List TreeNode
  | .dir _ cs => cs
  | _ => []

/-- Whether a node has type `file`. -/
def TreeNode.isFileNode : TreeNode → Bool
  | .file _ => true
  | _ => false

/-- Whether a node has type `directory`. -/
def TreeNode.isDirNode : TreeNode → Bool
  | .dir _ _ => true
  | _ => false

mutual
/-- `depthBounded k t`: within `k` further levels, every directory node
with no levels left has an explicitly empty children sequence, so no node
lies deeper than `k` levels below `t`. -/
def depthBounded (k : Nat) : TreeNode → Bool
  | .file _ => true
  | .truncated _ => true
  | .dir _ cs =>
    match k with
    | 0 => cs.isEmpty
    | k' + 1 => depthBoundedList k' cs

/-- `depthBounded` over a children list. -/
def depthBoundedList (k : Nat) : List TreeNode → Bool
  | [] => true
  | t :: ts => depthBounded k t && depthBoundedList k ts
end

mutual
/-- Whether a subtree contains at least one `file`-typed node. -/
def hasFileNode : TreeNode → Bool
  | .file _ => true
  | .truncated _ => false
  | .dir _ cs => hasFileNodeL cs

/-- `hasFileNode` over a children list. -/
def hasFileNodeL : List TreeNode → Bool
  | [] => false
  | t :: ts => hasFileNode t || hasFileNodeL ts
end

mutual
/-- The whitelist property exactly as claimed: every `file` node's absolute
path (its parent's absolute path `base`, a separator, its name) is in `W`,
and every `directory` node has at least one descendant `file` node. -/
def wlClaimOK (w : List String) (base : String) : TreeNode → Bool
  | .file n => w.contains (base ++ "/" ++ n)
  | .truncated _ => true
  | .dir n cs => hasFileNodeL cs && wlClaimOKList w (base ++ "/" ++ n) cs

/-- `wlClaimOK` over a children list. -/
def wlClaimOKList (w : List String) (base : String) : List TreeNode → Bool
  | [] => true
  | t :: ts => wlClaimOK w base t && wlClaimOKList w base ts
end

mutual
/-- The whitelist property the code actually guarantees: every `file`
node's absolute path is in `W`, and every `directory` node's absolute path
is a string prefix of some member of `W` (which may be a path in a sibling
directory whose name merely extends the prefix). -/
def wlPrefixOK (w : List String) (base : String) : TreeNode → Bool
  | .file n => w.contains (base ++ "/" ++ n)
  | .truncated _ => true
  | .dir n cs =>
    w.any (fun f => strStartsWith f (base ++ "/" ++ n)) &&
      wlPrefixOKList w (base ++ "/" ++ n) cs

/-- `wlPrefixOK` over a children list. -/
def wlPrefixOKList (w : List String) (base : String) : List TreeNode → Bool
  | [] => true
  | t :: ts => wlPrefixOK w base t && wlPrefixOKList w base ts
end

/-- The rewrite procedure exactly as the claim states it: strip the
negation marker, prepend the defining directory's prefix UNLESS the
pattern is already anchored (begins with `/`), and re-attach the marker.
Written from the claim's words, to be compared with
`rewriteGitignoreLine`, which is written from the source. -/
def rewriteGitignoreLineClaim (pfxPath : String) (line : String) : Option String :=
  let line := strTrim line
  if line = "" || strStartsWith line "#" then none
  else
    let neg := strStartsWith line "!"
    let pat := if neg then line.drop 1 else line
    let pat := if strStartsWith pat "/" then pat else pfxPath ++ pat
    some (if neg then "!" ++ pat else pat)

/-- A plain directory name: nonempty and purely alphanumeric, so it is not
hidden and contains no glob metacharacters, separators, dots, or markers. -/
def plainSeg (s : String) : Bool :=
  !s.data.isEmpty && s.data.all Char.isAlphanum

/-- The claim C1 filesystem: a root with `.gitignore` containing `*.log`
and a file `keep.log`, and a subdirectory `s` with its own `.gitignore`
containing `!keep.log` and its own file `keep.log`. -/
def c1FS (rootName s : String) : FS :=
  .dir rootName true
    [ .file ".gitignore" ["*.log"],
      .file "keep.log" [],
      .dir s true [ .file ".gitignore" ["!keep.log"], .file "keep.log" [] ] ]

/-! ## JSON (claim C9)

`format_json` is `json.dumps(tree_data, indent=2, ensure_ascii=False)`
(`output_formatters.py` lines 120-122). The renderer below mirrors the
documented CPython output format for the values the tree produces (objects
with string keys, arrays, strings): keys in insertion order, an indent of
two spaces per level, `", "`-free item separators (a comma followed by a
newline and indentation), `": "` between key and value, `"` `\\` and
control characters escaped (`\n` `\t` `\r` `\b` `\f` shortcuts,
`\u00XX` otherwise), and non-ASCII characters passed through raw. The
parser below models `json.loads` on this sublanguage. -/

/-- A JSON value of the shapes `build_tree_data` serializes: strings,
arrays, and objects with ordered string keys. -/
inductive JsonVal where
  | str (s : String)
  | arr (xs : List JsonVal)
  | obj (kvs : List (String × JsonVal))

/-- The opening-brace character, `\x7b`. -/
def lbrace : Char := Char.ofNat 123

/-- The closing-brace character, `\x7d`. -/
def rbrace : Char := Char.ofNat 125

/-- Lowercase hexadecimal digit for `n < 16`. -/
def hexDig (n : Nat) : Char :=
  if n < 10 then Char.ofNat (48 + n) else Char.ofNat (87 + n)

/-- JSON string escaping of one character, as `json.dumps` with
`ensure_ascii=False` does it. -/
def escapeChar (c : Char) : List Char :=
  if c = '"' then ['\\', '"']
  else if c = '\\' then ['\\', '\\']
  else if c = '\n' then ['\\', 'n']
  else if c = '\t' then ['\\', 't']
  else if c = '\r' then ['\\', 'r']
  else if c = Char.ofNat 8 then ['\\', 'b']
  else if c = Char.ofNat 12 then ['\\', 'f']
  else if c.toNat < 32 then
    ['\\', 'u', '0', '0', hexDig (c.toNat / 16), hexDig (c.toNat % 16)]
  else [c]

/-- Render a JSON string literal: quote, escaped characters, quote. -/
def renderString (s : String) : List Char :=
  '"' :: (s.data.map escapeChar).flatten ++ ['"']

/-- A newline followed by the indentation of level `k` (two spaces per
level), as `indent=2` emits between items. -/
def nlIndent (k : Nat) : List Char := '\n' :: List.replicate (2 * k) ' '

mutual
/-- Render a JSON value at indentation level `k`, mirroring
`json.dumps(.., indent=2, ensure_ascii=False)`. -/
def renderVal : JsonVal → Nat → List Char
  | .str s, _ => renderString s
  | .arr [], _ => ['[', ']']
  | .arr (x :: xs), k =>
    '[' :: (nlIndent (k + 1) ++ renderVal x (k + 1) ++
      renderArrRest (k + 1) xs ++ nlIndent k ++ [']'])
  | .obj [], _ => [lbrace, rbrace]
  | .obj ((key, v) :: kvs), k =>
    lbrace :: (nlIndent (k + 1) ++ renderString key ++ ':' :: ' ' ::
      renderVal v (k + 1) ++ renderObjRest (k + 1) kvs ++
      nlIndent k ++ [rbrace])

/-- Render the array items after the first: a comma, a newline with
indentation, the item. -/
def renderArrRest (k : Nat) : List JsonVal → List Char
  | [] => []
  | x :: xs => ',' :: (nlIndent k ++ renderVal x k ++ renderArrRest k xs)

/-- Render the object members after the first. -/
def renderObjRest (k : Nat) : List (String × JsonVal) → List Char
  | [] => []
  | (key, v) :: kvs =>
    ',' :: (nlIndent k ++ renderString key ++ ':' :: ' ' ::
      renderVal v k ++ renderObjRest k kvs)
end

mutual
/-- The JSON document `build_tree_data`'s dictionaries form: `name` and
`type` keys, plus an ordered `children` array for directories only. -/
def toJson : TreeNode → JsonVal
  | .file n => .obj [("name", .str n), ("type", .str "file")]
  | .truncated n => .obj [("name", .str n), ("type", .str "truncated")]
  | .dir n cs =>
    .obj [("name", .str n), ("type", .str "directory"),
      ("children", .arr (toJsonList cs))]

/-- `toJson` over a children list, in order. -/
def toJsonList : List TreeNode → List JsonVal
  | [] => []
  | t :: ts => toJson t :: toJsonList ts
end

/-- `format_json` (lines 120-122): serialize the tree structure as an
indented JSON string. -/
def format_json (tree : TreeNode) : String :=
  String.mk (renderVal (toJson tree) 0)

/-- JSON insignificant whitespace. -/
def isJsonWs (c : Char) : Bool :=
  c = ' ' || c = '\n' || c = '\t' || c = '\r'

/-- Skip insignificant whitespace. -/
def skipWs (cs : List Char) : List Char := cs.dropWhile isJsonWs

/-- Value of one hexadecimal digit. -/
def hexVal (c : Char) : Option Nat :=
  if 48 ≤ c.toNat ∧ c.toNat ≤ 57 then some (c.toNat - 48)
  else if 97 ≤ c.toNat ∧ c.toNat ≤ 102 then some (c.toNat - 87)
  else if 65 ≤ c.toNat ∧ c.toNat ≤ 70 then some (c.toNat - 55)
  else none

/-- The single-character escapes of a JSON string body. -/
def unescape (e : Char) : Option Char :=
  if e = '"' then some '"'
  else if e = '\\' then some '\\'
  else if e = '/' then some '/'
  else if e = 'n' then some '\n'
  else if e = 't' then some '\t'
  else if e = 'r' then some '\r'
  else if e = 'b' then some (Char.ofNat 8)
  else if e = 'f' then some (Char.ofNat 12)
  else none

/-- Parse the body of a JSON string literal after the opening quote, up to
and through the closing quote; returns the decoded characters and the
remaining input. -/
def parseStringBody : List Char → Option (List Char × List Char)
  | [] => none
  | '"' :: rest => some ([], rest)
  | '\\' :: rest =>
    (match rest with
     | 'u' :: h1 :: h2 :: h3 :: h4 :: rest2 =>
       (match hexVal h1, hexVal h2, hexVal h3, hexVal h4 with
        | some a, some b, some c, some d =>
          (match parseStringBody rest2 with
           | some (out, r) =>
             some (Char.ofNat (((a * 16 + b) * 16 + c) * 16 + d) :: out, r)
           | none => none)
        | _, _, _, _ => none)
     | e :: rest2 =>
       (match unescape e with
        | some c =>
          (match parseStringBody rest2 with
           | some (out, r) => some (c :: out, r)
           | none => none)
        | none => none)
     | [] => none)
  | c :: rest =>
    (match parseStringBody rest with
     | some (out, r) => some (c :: out, r)
     | none => none)

mutual
/-- Modelled from `json.loads` restricted to the strings/arrays/objects
sublanguage `format_json` emits. The fuel argument only bounds nesting; it
is seeded with the input length, which always suffices. -/
def parseVal : Nat → List Char → Option (JsonVal × List Char)
  | 0, _ => none
  | fuel + 1, cs =>
    match skipWs cs with
    | [] => none
    | c :: rest =>
      if c = '"' then
        match parseStringBody rest with
        | some (out, r) => some (.str (String.mk out), r)
        | none => none
      else if c = '[' then
        match skipWs rest with
        | ']' :: r2 => some (.arr [], r2)
        | _ =>
          match parseArrItems fuel rest with
          | some (xs, r) => some (.arr xs, r)
          | none => none
      else if c = lbrace then
        match skipWs rest with
        | c2 :: r2 =>
          if c2 = rbrace then some (.obj [], r2)
          else
            match parseObjItems fuel rest with
            | some (kvs, r) => some (.obj kvs, r)
            | none => none
        | [] => none
      else none

/-- Parse one or more comma-separated array items and the closing
bracket. -/
def parseArrItems : Nat → List Char → Option (List JsonVal × List Char)
  | 0, _ => none
  | fuel + 1, cs =>
    match parseVal fuel cs with
    | some (v, r) =>
      (match skipWs r with
       | c :: r2 =>
         if c = ',' then
           match parseArrItems fuel r2 with
           | some (xs, r3) => some (v :: xs, r3)
           | none => none
         else if c = ']' then some ([v], r2)
         else none
       | [] => none)
    | none => none

/-- Parse one or more comma-separated object members and the closing
brace. -/
def parseObjItems : Nat → List Char → Option (List (String × JsonVal) × List Char)
  | 0, _ => none
  | fuel + 1, cs =>
    match skipWs cs with
    | c0 :: rest =>
      if c0 = '"' then
        match parseStringBody rest with
        | some (key, r) =>
          (match skipWs r with
           | c1 :: r2 =>
             if c1 = ':' then
               match parseVal fuel r2 with
               | some (v, r3) =>
                 (match skipWs r3 with
                  | c :: r4 =>
                    if c = ',' then
                      match parseObjItems fuel r4 with
                      | some (kvs, r5) => some ((String.mk key, v) :: kvs, r5)
                      | none => none
                    else if c = rbrace then some ([(String.mk key, v)], r4)
                    else none
                  | [] => none)
               | none => none
             else none
           | [] => none)
        | none => none
      else none
    | [] => none
end

/-- Modelled from `json.loads`: parse a complete document, requiring only
whitespace to remain. -/
def json_loads (s : String) : Option JsonVal :=
  match parseVal (s.length + 1) s.data with
  | some (v, rest) => if skipWs rest = [] then some v else none
  | none => none

mutual
/-- Read a parsed JSON object back as a tree node: the `name` and `type`
values and, for a directory, the ordered `children`. This is the
observation the claim makes of the re-parsed document. -/
def jsonToTree : JsonVal → Option TreeNode
  | .obj [("name", .str n), ("type", .str ty)] =>
    if ty = "file" then some (.file n)
    else if ty = "truncated" then some (.truncated n)
    else none
  | .obj [("name", .str n), ("type", .str ty), ("children", .arr xs)] =>
    if ty = "directory" then
      match jsonToTreeList xs with
      | some cs => some (.dir n cs)
      | none => none
    else none
  | _ => none

/-- `jsonToTree` over an array of children, in order. -/
def jsonToTreeList : List JsonVal → Option (List TreeNode)
  | [] => some []
  | x :: xs =>
    match jsonToTree x, jsonToTreeList xs with
    | some t, some ts => some (t :: ts)
    | _, _ => none
end

mutual
/-- Structural size of a JSON value, used to bound the parser fuel. -/
def jsize : JsonVal → Nat
  | .str _ => 1
  | .arr xs => jsizeL xs + 1
  | .obj kvs => jsizeKV kvs + 1

/-- `jsize` over array items. -/
def jsizeL : List JsonVal → Nat
  | [] => 0
  | x :: xs => jsize x + jsizeL xs + 1

/-- `jsize` over object members. -/
def jsizeKV : List (String × JsonVal) → Nat
  | [] => 0
  | kv :: kvs => jsize kv.2 + jsizeKV kvs + 1
end

mutual
/-- Structural size of a tree node. -/
def tsize : TreeNode → Nat
  | .file _ => 1
  | .truncated _ => 1
  | .dir _ cs => tsizeL cs + 1

/-- `tsize` over a children list. -/
def tsizeL : List TreeNode → Nat
  | [] => 0
  | t :: ts => tsize t + tsizeL ts + 1
end

theorem mem_orderedInsert {e a : FS} {l : List FS} (h : e ∈ orderedInsert a l) :
    e = a ∨ e ∈ l := by
  induction l with
  | nil => simp only [orderedInsert, List.mem_singleton, List.not_mem_nil] at h ⊢; exact Or.inl h
  | cons b l ih =>
    rw [orderedInsert] at h
    split at h
    · rcases List.mem_cons.mp h with h | h
      · exact Or.inl h
      · exact Or.inr h
    · rcases List.mem_cons.mp h with h | h
      · exact Or.inr (h ▸ List.mem_cons_self b l)
      · rcases ih h with h | h
        · exact Or.inl h
        · exact Or.inr (List.mem_cons_of_mem b h)

theorem mem_sortEntries {e : FS} {l : List FS} (h : e ∈ sortEntries l) : e ∈ l := by
  induction l with
  | nil => simp only [sortEntries, List.not_mem_nil] at h
  | cons a l ih =>
    rw [sortEntries] at h
    rcases mem_orderedInsert h with h | h
    · exact h ▸ List.mem_cons_self a l
    · exact List.mem_cons_of_mem a (ih h)

theorem mem_hiddenStep {e : FS} {sa : Bool} {l : List FS}
    (h : e ∈ hiddenStep sa l) : e ∈ l := by
  rw [hiddenStep] at h
  split at h
  · exact h
  · exact (List.mem_filter.mp h).1

theorem mem_noFilesStep {e : FS} {nf : Bool} {l : List FS}
    (h : e ∈ noFilesStep nf l) : e ∈ l := by
  rw [noFilesStep] at h
  split at h
  · exact (List.mem_filter.mp h).1
  · exact h

theorem mem_filterEntries {e : FS} {d p : List String} {sa : Bool}
    {x : List String} {nf : Bool} {entries : List FS}
    (h : e ∈ filterEntries d p sa x nf entries) : e ∈ entries :=
  mem_hiddenStep
    (List.mem_filter.mp (List.mem_filter.mp (mem_noFilesStep h)).1).1

theorem mem_applyCap {e : FS} {m : Option Nat} {l : List FS}
    (h : e ∈ (applyCap m l).1) : e ∈ l := by
  rw [applyCap.eq_def] at h
  rcases m with _ | m
  · exact h
  · dsimp only at h
    split at h
    · exact (List.take_sublist _ _).subset h
    · exact h

theorem mem_list_entries {e : FS} {d p : List String} {sa : Bool}
    {x : List String} {m : Option Nat} {nf lb : Bool} {entries : List FS}
    (h : e ∈ (list_entries d p sa x m nf lb entries).1) : e ∈ entries := by
  rw [list_entries] at h
  split at h
  · simp at h
  · exact mem_filterEntries (mem_sortEntries (mem_applyCap h))

theorem mem_whitelistFilter {e : FS} {w : Option (List String)} {r : String}
    {d : List String} {entries : List FS}
    (h : e ∈ whitelistFilter w r d entries) : e ∈ entries := by
  rw [whitelistFilter.eq_def] at h
  rcases w with _ | w
  · exact h
  · exact (List.mem_filter.mp h).1

theorem height_le_of_mem {e : FS} {l : List FS} (h : e ∈ l) :
    FS.height e ≤ FS.heightL l := by
  induction l with
  | nil => simp at h
  | cons a l ih =>
    rw [FS.heightL]
    rcases List.mem_cons.mp h with h | h
    · exact h ▸ Nat.le_max_left _ _
    · exact Nat.le_trans (ih h) (Nat.le_max_right _ _)

/-- Any fuel strictly above the height of the entry list produces the same
tree: the bound in `build_tree_data` is always sufficient and the fuel
argument is semantically inert. -/
theorem recBuild_fuel_irrelevant (cfg : Config) (rootAbs : String) :
    ∀ f1 f2 relPath curDepth patterns listable entries,
      FS.heightL entries < f1 → FS.heightL entries < f2 →
      recBuild cfg rootAbs f1 relPath curDepth patterns listable entries =
        recBuild cfg rootAbs f2 relPath curDepth patterns listable entries := by
  intro f1
  induction f1 with
  | zero => intro f2 _ _ _ _ _ h1 _; omega
  | succ f1 ih =>
    intro f2 relPath curDepth patterns listable entries h1 h2
    rcases f2 with _ | f2
    · omega
    rw [recBuild, recBuild]
    by_cases hd : depthReached cfg.depth curDepth = true
    · rw [if_pos hd, if_pos hd]
    · rw [if_neg hd, if_neg hd]
      dsimp only
      congr 1
      congr 1
      apply List.map_congr_left
      intro e he
      have hmem : e ∈ entries := mem_list_entries (mem_whitelistFilter he)
      cases e with
      | file n lines => rfl
      | other n => rfl
      | dir n lb cs =>
        have hh : FS.height (FS.dir n lb cs) ≤ FS.heightL entries :=
          height_le_of_mem hmem
        rw [FS.height] at hh
        dsimp only
        congr 2
        exact ih f2 _ _ _ _ cs (by omega) (by omega)

/-! ## Claim C8 -/

/-- Claim C8: for every root path that does not exist or is not a directory
(`is_dir()` returns false), `build_tree_data` returns — without raising — a
root node of kind `directory`, named with the root's base name, and with an
empty children sequence. -/
theorem c8_non_directory_root (cfg : Config) (rootAbs : String) (root : FS)
    (h : root.isDir = false) :
    build_tree_data cfg rootAbs root = TreeNode.dir root.name [] := by
  cases root with
  | file n lines => rfl
  | dir n lb cs => simp [FS.isDir] at h
  | other n => rfl

/-- Witness for C8 at a concrete non-directory root (a nonexistent or
special path, for which `is_file` and `is_dir` are both false). -/
theorem c8_non_directory_root_witness :
    FS.isDir (FS.other "gone") = false ∧
      build_tree_data ⟨none, false, [], true, none, none, false, none⟩ "/abs"
        (FS.other "gone") = TreeNode.dir "gone" [] :=
  ⟨rfl, c8_non_directory_root ⟨none, false, [], true, none, none, false, none⟩
    "/abs" (FS.other "gone") rfl⟩

/-! ## Claim C5 -/

/-- Counterexample to claim C5: for the anchored line `/build` in a
directory with prefix `sub/`, the code strips the leading slash and still
prepends the prefix, producing `sub/build`, while the claimed procedure
leaves an already-anchored pattern without the prefix, producing `/build`. -/
theorem c5_counterexample :
    rewriteGitignoreLine "sub/" "/build" = some "sub/build" ∧
      rewriteGitignoreLineClaim "sub/" "/build" = some "/build" ∧
      rewriteGitignoreLine "sub/" "/build" ≠
        rewriteGitignoreLineClaim "sub/" "/build" := by
  refine ⟨rfl, rfl, ?_⟩
  decide

/-- Claim C5 as amended: for every `.gitignore` line read during traversal,
after stripping surrounding whitespace, a blank or comment line is skipped;
otherwise the leading negation marker (if present) is stripped, ALL leading
slashes are removed from the pattern (so an anchored pattern loses its
anchor), the defining directory's root-relative posix prefix (empty for the
root) is ALWAYS prepended, and the negation marker is re-attached. -/
theorem c5_rewrite_amended (pfxPath line : String) :
    (strTrim line = "" ∨ strStartsWith (strTrim line) "#" = true →
      rewriteGitignoreLine pfxPath line = none) ∧
    (strTrim line ≠ "" → strStartsWith (strTrim line) "#" = false →
      strStartsWith (strTrim line) "!" = false →
      rewriteGitignoreLine pfxPath line =
        some (pfxPath ++
          String.mk ((strTrim line).data.dropWhile (fun c => c == '/')))) ∧
    (strStartsWith (strTrim line) "#" = false →
      strStartsWith (strTrim line) "!" = true →
      rewriteGitignoreLine pfxPath line =
        some ("!" ++ (pfxPath ++
          String.mk (((strTrim line).drop 1).data.dropWhile (fun c => c == '/'))))) := by
  refine ⟨?_, ?_, ?_⟩
  · intro h
    rw [rewriteGitignoreLine]
    rcases h with h | h
    · simp [h]
    · simp [h]
  · intro h1 h2 h3
    rw [rewriteGitignoreLine]
    simp only [h2, h3, Bool.false_eq_true, if_false, Bool.or_false]
    rw [if_neg (by simpa using h1)]
  · intro h2 h3
    rw [rewriteGitignoreLine]
    have h1 : ¬(strTrim line = "") := by
      intro he
      rw [he] at h3
      simp [strStartsWith, startsWithChars] at h3
    simp only [h2, h3, Bool.false_eq_true, if_false, Bool.or_false, if_true]
    rw [if_neg (by simpa using h1)]

/-- Witness for the amended C5 at a concrete negated anchored line in a
subdirectory. -/
theorem c5_rewrite_amended_witness :
    rewriteGitignoreLine "sub/" "!/keep.log" = some "!sub/keep.log" :=
  (c5_rewrite_amended "sub/" "!/keep.log").2.2 (by decide) (by decide)

/-! ## Claim C7 -/

theorem whitelistFilter_nil (w : Option (List String)) (r : String)
    (d : List String) : whitelistFilter w r d [] = [] := by
  cases w <;> rfl

theorem recBuild_unlistable (cfg : Config) (rootAbs : String) :
    ∀ fuel relPath curDepth patterns cs,
      recBuild cfg rootAbs fuel relPath curDepth patterns false cs = [] := by
  intro fuel relPath curDepth patterns cs
  cases fuel with
  | zero => rfl
  | succ f =>
    rw [recBuild]
    split
    · rfl
    · rcases h : cfg.whitelist with _ | w <;> simp only [h] <;> rfl

/-- Claim C7: a directory whose children cannot be listed (a permission or
I/O error from `iterdir`, modelled by `listable = false`) yields an empty
listing instead of an exception, its subtree is built exactly as an empty
directory's would be, and the traversal of the rest of the tree continues
unaffected (concretely: a sibling of the unreadable directory is still
listed). -/
theorem c7_permission_error_nonfatal :
    (∀ d p sa x m nf (entries : List FS),
        list_entries d p sa x m nf false entries = ([], 0)) ∧
    (∀ cfg rootAbs fuel relPath curDepth patterns (cs cs' : List FS),
        recBuild cfg rootAbs fuel relPath curDepth patterns false cs =
          recBuild cfg rootAbs fuel relPath curDepth patterns false cs') ∧
    (build_tree_data ⟨none, false, [], false, none, none, false, none⟩ "/r"
        (FS.dir "root" true
          [FS.dir "locked" false [FS.file "hidden.txt" []], FS.file "a" []]) =
      TreeNode.dir "root" [TreeNode.dir "locked" [], TreeNode.file "a"]) := by
  refine ⟨fun _ _ _ _ _ _ _ => rfl, fun cfg rootAbs fuel rp cd pats cs cs' => ?_, rfl⟩
  rw [recBuild_unlistable, recBuild_unlistable]

/-! ## Claim C10 -/

/-- Claim C10: every node the builder emits is `file`-, `directory`- or
`truncated`-typed, and every non-marker child corresponds to an entry of
the directory with the same name whose `is_file`/`is_dir` status matches
the node type — so an entry that is neither a regular file nor a directory
(e.g. a broken symbolic link) produces no node at all, even when it
survives every filter. Concretely: with a whitelist that excludes
everything, the broken entry survives the whitelist narrowing (it falls
through both membership tests) yet the resulting tree has no node for it. -/
theorem c10_other_entries_emit_no_node :
    (∀ cfg rootAbs fuel relPath curDepth patterns lb entries c,
        c ∈ recBuild cfg rootAbs fuel relPath curDepth patterns lb entries →
        c.isTruncated = true ∨
          ∃ e ∈ entries, c.name = e.name ∧ c.isFileNode = e.isFile ∧
            c.isDirNode = e.isDir) ∧
    (whitelistFilter (some []) "/r" []
        (list_entries [] [] false [] none false true
          [FS.file "a" [], FS.other "broken", FS.dir "d" true []]).1 =
      [FS.other "broken"]) ∧
    (build_tree_data ⟨none, false, [], false, none, none, false, some []⟩ "/r"
        (FS.dir "root" true
          [FS.file "a" [], FS.other "broken", FS.dir "d" true []]) =
      TreeNode.dir "root" []) := by
  refine ⟨?_, rfl, rfl⟩
  intro cfg rootAbs fuel relPath curDepth patterns lb entries c hc
  cases fuel with
  | zero => simp [recBuild] at hc
  | succ f =>
    rw [recBuild] at hc
    by_cases hd : depthReached cfg.depth curDepth = true
    · rw [if_pos hd] at hc
      simp at hc
    · rw [if_neg hd] at hc
      dsimp only at hc
      rcases List.mem_append.mp hc with hk | hm
      · rcases List.mem_flatten.mp hk with ⟨l, hl, hcl⟩
        rcases List.mem_map.mp hl with ⟨e, he, rfl⟩
        have hent : e ∈ entries := mem_list_entries (mem_whitelistFilter he)
        cases e with
        | file n lines =>
          rcases List.mem_singleton.mp hcl with rfl
          exact Or.inr ⟨FS.file n lines, hent, rfl, rfl, rfl⟩
        | dir n lb' cs =>
          rcases List.mem_singleton.mp hcl with rfl
          exact Or.inr ⟨FS.dir n lb' cs, hent, rfl, rfl, rfl⟩
        | other n => simp at hcl
      · split at hm
        · rcases List.mem_singleton.mp hm with rfl
          exact Or.inl rfl
        · simp at hm

/-- Witness for C10's universal part: the file node for `a.txt` in a
concrete listing corresponds to the file entry `a.txt`. -/
theorem c10_other_entries_emit_no_node_witness :
    (TreeNode.file "a").isTruncated = true ∨
      ∃ e ∈ [FS.file "a" [], FS.other "broken"],
        (TreeNode.file "a").name = e.name ∧
          (TreeNode.file "a").isFileNode = e.isFile ∧
          (TreeNode.file "a").isDirNode = e.isDir :=
  c10_other_entries_emit_no_node.1
    ⟨none, false, [], false, none, none, false, none⟩ "/r" 1 [] 0 [] true
    [FS.file "a" [], FS.other "broken"] (TreeNode.file "a") (List.Mem.head _)

/-! ## Claim C6 -/

/-- Claim C6: the pattern list a directory hands to its children is a fresh
extension of the list inherited from its parent — the inherited list is a
prefix of it and is never mutated; the extension depends only on the
directory's own `.gitignore` file, so a sibling subtree is traversed with
a pattern list containing none of another subtree's local rules.
Concretely: the rule `secret` from `sub1/.gitignore` excludes
`sub1/secret` but leaves the sibling `sub2/secret` visible. -/
theorem c6_patterns_extended_copy :
    (∀ rg gd relPath curDepth patterns entries,
        ∃ suffix, extendPatterns rg gd relPath curDepth patterns entries =
          patterns ++ suffix) ∧
    (∀ relPath (entries entries' : List FS),
        gitignoreLines entries = gitignoreLines entries' →
        localRules relPath entries = localRules relPath entries') ∧
    (build_tree_data ⟨none, false, [], true, none, none, false, none⟩ "/r"
        (FS.dir "root" true
          [FS.dir "sub1" true [FS.file ".gitignore" ["secret"], FS.file "secret" []],
           FS.dir "sub2" true [FS.file "secret" []]]) =
      TreeNode.dir "root"
        [TreeNode.dir "sub1" [], TreeNode.dir "sub2" [TreeNode.file "secret"]]) := by
  refine ⟨?_, ?_, rfl⟩
  · intro rg gd relPath curDepth patterns entries
    rw [extendPatterns]
    split
    · exact ⟨localRules relPath entries, rfl⟩
    · exact ⟨[], (List.append_nil patterns).symm⟩
  · intro relPath entries entries' h
    rw [localRules, localRules, h]

/-- Witness for C6: the extension is the same whether or not unrelated
entries beside the `.gitignore` file change. -/
theorem c6_patterns_extended_copy_witness :
    localRules [] [FS.file ".gitignore" ["x"]] =
      localRules [] [FS.file ".gitignore" ["x"], FS.other "y"] :=
  c6_patterns_extended_copy.2.1 [] _ _ rfl

/-! ## Claim C3 -/

theorem depthBoundedList_forall {k : Nat} {l : List TreeNode} :
    depthBoundedList k l = true ↔ ∀ t ∈ l, depthBounded k t = true := by
  induction l with
  | nil => simp [depthBoundedList]
  | cons t ts ih =>
    rw [depthBoundedList]
    simp [Bool.and_eq_true, ih]

theorem recBuild_depth_stop (cfg : Config) (rootAbs : String)
    (fuel : Nat) (relPath : List String) (curDepth : Nat)
    (patterns : List String) (lb : Bool) (entries : List FS)
    (h : depthReached cfg.depth curDepth = true) :
    recBuild cfg rootAbs fuel relPath curDepth patterns lb entries = [] := by
  cases fuel with
  | zero => rfl
  | succ f => rw [recBuild, if_pos h]

theorem recBuild_depthBounded (cfg : Config) (rootAbs : String) (N : Nat)
    (hN : cfg.depth = some N) :
    ∀ fuel relPath curDepth patterns lb entries c,
      c ∈ recBuild cfg rootAbs fuel relPath curDepth patterns lb entries →
      depthBounded (N - (curDepth + 1)) c = true := by
  intro fuel
  induction fuel with
  | zero =>
    intro relPath curDepth patterns lb entries c hc
    simp [recBuild] at hc
  | succ f ih =>
    intro relPath curDepth patterns lb entries c hc
    rw [recBuild] at hc
    by_cases hd : depthReached cfg.depth curDepth = true
    · rw [if_pos hd] at hc
      simp at hc
    · rw [if_neg hd] at hc
      dsimp only at hc
      rcases List.mem_append.mp hc with hk | hm
      · rcases List.mem_flatten.mp hk with ⟨l, hl, hcl⟩
        rcases List.mem_map.mp hl with ⟨e, _, rfl⟩
        cases e with
        | file n lines =>
          rcases List.mem_singleton.mp hcl with rfl
          rfl
        | other n => simp at hcl
        | dir n lb' cs =>
          rcases List.mem_singleton.mp hcl with rfl
          rcases hk2 : N - (curDepth + 1) with _ | k'
          · rw [depthBounded]
            have hstop : depthReached cfg.depth (curDepth + 1) = true := by
              rw [depthReached.eq_def, hN]
              simp
              omega
            rw [recBuild_depth_stop cfg rootAbs f _ _ _ _ _ hstop]
            rfl
          · rw [depthBounded]
            apply depthBoundedList_forall.mpr
            intro t ht
            have := ih _ (curDepth + 1) _ lb' cs t ht
            have hk3 : N - (curDepth + 1 + 1) = k' := by omega
            rwa [hk3] at this
      · split at hm
        · rcases List.mem_singleton.mp hm with rfl
          rfl
        · simp at hm

/-- Claim C3: for every depth bound `N`, the built tree never has a `file`
or `directory` node nested more than `N` levels below the root, and every
directory node at exactly `N` levels carries an explicitly empty (present,
not absent) children sequence — `depthBounded N` over the whole tree. -/
theorem c3_depth_bound (cfg : Config) (rootAbs : String) (root : FS)
    (N : Nat) (h : cfg.depth = some N) :
    depthBounded N (build_tree_data cfg rootAbs root) = true := by
  cases root with
  | file n lines => rcases N with _ | N' <;> rfl
  | other n => rcases N with _ | N' <;> rfl
  | dir n lb cs =>
    rcases N with _ | N'
    · have hstop : depthReached cfg.depth 0 = true := by
        rw [depthReached.eq_def, h]
        simp
      show depthBounded 0
        (TreeNode.dir n (recBuild cfg rootAbs (FS.heightL cs + 1) [] 0 [] lb cs)) = true
      rw [recBuild_depth_stop cfg rootAbs _ _ _ _ _ _ hstop]
      rfl
    · show depthBounded (N' + 1)
        (TreeNode.dir n (recBuild cfg rootAbs (FS.heightL cs + 1) [] 0 [] lb cs)) = true
      rw [depthBounded]
      apply depthBoundedList_forall.mpr
      intro t ht
      have h2 := recBuild_depthBounded cfg rootAbs (N' + 1) h _ [] 0 [] lb cs t ht
      simpa using h2

/-- Witness for C3 at a concrete bound of 1 over a two-level tree. -/
theorem c3_depth_bound_witness :
    depthBounded 1
      (build_tree_data ⟨some 1, false, [], false, none, none, false, none⟩ "/r"
        (FS.dir "root" true
          [FS.dir "sub" true [FS.file "x" []], FS.file "a" []])) = true :=
  c3_depth_bound ⟨some 1, false, [], false, none, none, false, none⟩ "/r"
    (FS.dir "root" true [FS.dir "sub" true [FS.file "x" []], FS.file "a" []]) 1 rfl

/-! ## Claim C2 -/

theorem joinSegs_cons_cons (a b : String) (l : List String) :
    joinSegs (a :: b :: l) = a ++ "/" ++ joinSegs (b :: l) := rfl

theorem joinSegs_append_last (l : List String) (a n : String) :
    joinSegs (a :: (l ++ [n])) = joinSegs (a :: l) ++ "/" ++ n := by
  induction l generalizing a with
  | nil => rfl
  | cons b l ih =>
    show joinSegs (a :: b :: (l ++ [n])) = joinSegs (a :: b :: l) ++ "/" ++ n
    rw [joinSegs_cons_cons, joinSegs_cons_cons, ih b]
    simp only [String.append_assoc]

theorem absOf_append (rootAbs : String) (relPath : List String) (n : String) :
    absOf rootAbs (relPath ++ [n]) = absOf rootAbs relPath ++ "/" ++ n := by
  rw [absOf, absOf, joinSegs_append_last]

theorem whitelistFilter_mem_cond {w : List String} {rootAbs : String}
    {relPath : List String} {l : List FS} {e : FS}
    (h : e ∈ whitelistFilter (some w) rootAbs relPath l) :
    (e.isFile = true →
      w.contains (absOf rootAbs (relPath ++ [e.name])) = true) ∧
    (e.isDir = true →
      w.any (fun f => strStartsWith f (absOf rootAbs (relPath ++ [e.name]))) = true) := by
  have hcond := (List.mem_filter.mp h).2
  cases e with
  | file n lines =>
    refine ⟨fun _ => ?_, fun hd => by simp [FS.isDir] at hd⟩
    simpa [FS.isFile, FS.name] using hcond
  | dir n lb cs =>
    refine ⟨fun hf => by simp [FS.isFile] at hf, fun _ => ?_⟩
    simpa [FS.isFile, FS.isDir, FS.name] using hcond
  | other n =>
    exact ⟨fun hf => by simp [FS.isFile] at hf, fun hd => by simp [FS.isDir] at hd⟩

theorem wlPrefixOKList_forall {w : List String} {base : String}
    {l : List TreeNode} :
    wlPrefixOKList w base l = true ↔ ∀ t ∈ l, wlPrefixOK w base t = true := by
  induction l with
  | nil => simp [wlPrefixOKList]
  | cons t ts ih =>
    rw [wlPrefixOKList]
    simp [Bool.and_eq_true, ih]

theorem recBuild_wlPrefixOK (cfg : Config) (rootAbs : String) (w : List String)
    (hW : cfg.whitelist = some w) :
    ∀ fuel relPath curDepth patterns lb entries c,
      c ∈ recBuild cfg rootAbs fuel relPath curDepth patterns lb entries →
      wlPrefixOK w (absOf rootAbs relPath) c = true := by
  intro fuel
  induction fuel with
  | zero =>
    intro relPath curDepth patterns lb entries c hc
    simp [recBuild] at hc
  | succ f ih =>
    intro relPath curDepth patterns lb entries c hc
    rw [recBuild] at hc
    by_cases hd : depthReached cfg.depth curDepth = true
    · rw [if_pos hd] at hc
      simp at hc
    · rw [if_neg hd] at hc
      dsimp only at hc
      rw [hW] at hc
      rcases List.mem_append.mp hc with hk | hm
      · rcases List.mem_flatten.mp hk with ⟨l, hl, hcl⟩
        rcases List.mem_map.mp hl with ⟨e, he, rfl⟩
        cases e with
        | file n lines =>
          rcases List.mem_singleton.mp hcl with rfl
          have hcond := (whitelistFilter_mem_cond he).1 rfl
          rw [wlPrefixOK]
          rw [absOf_append] at hcond
          exact hcond
        | other n => simp at hcl
        | dir n lb' cs =>
          rcases List.mem_singleton.mp hcl with rfl
          have hcond := (whitelistFilter_mem_cond he).2 rfl
          rw [absOf_append] at hcond
          rw [wlPrefixOK, Bool.and_eq_true]
          refine ⟨hcond, ?_⟩
          apply wlPrefixOKList_forall.mpr
          intro t ht
          have h2 := ih (relPath ++ [n]) (curDepth + 1) _ lb' cs t ht
          rwa [absOf_append] at h2
      · split at hm
        · rcases List.mem_singleton.mp hm with rfl
          rfl
        · simp at hm

/-- Counterexample to claim C2: with whitelist `{"/r/abc/f.txt"}`, the
directory `ab` survives — the raw string-prefix test `"/r/abc/f.txt"
.startswith("/r/ab")` is true — yet it is emitted with no children and has
no descendant file in the whitelist, so the claimed invariant (every
directory node has a whitelisted descendant file) is false on the built
tree. -/
theorem c2_counterexample :
    build_tree_data ⟨none, false, [], false, none, none, false,
        some ["/r/abc/f.txt"]⟩ "/r"
        (FS.dir "root" true
          [FS.dir "ab" true [FS.file "x.txt" []],
           FS.dir "abc" true [FS.file "f.txt" []]]) =
      TreeNode.dir "root"
        [TreeNode.dir "ab" [], TreeNode.dir "abc" [TreeNode.file "f.txt"]] ∧
    wlClaimOKList ["/r/abc/f.txt"] "/r"
      [TreeNode.dir "ab" [], TreeNode.dir "abc" [TreeNode.file "f.txt"]] = false :=
  ⟨rfl, rfl⟩

/-- Claim C2 as amended: for every whitelist `W`, every `file` node in the
built tree (root aside) has its absolute path in `W`, and every
`directory` node's absolute path is a string prefix of some member of `W`
— which may be a path inside an unrelated sibling directory whose name
extends the prefix, so a directory node need not contain any whitelisted
descendant. -/
theorem c2_whitelist_amended (cfg : Config) (rootAbs : String) (root : FS)
    (w : List String) (hW : cfg.whitelist = some w) :
    wlPrefixOKList w rootAbs (build_tree_data cfg rootAbs root).childrenOf = true := by
  cases root with
  | file n lines => rfl
  | other n => rfl
  | dir n lb cs =>
    show wlPrefixOKList w rootAbs
      (recBuild cfg rootAbs (FS.heightL cs + 1) [] 0 [] lb cs) = true
    apply wlPrefixOKList_forall.mpr
    intro t ht
    exact recBuild_wlPrefixOK cfg rootAbs w hW _ [] 0 [] lb cs t ht

/-- Witness for the amended C2 on the concrete prefix-collision scenario. -/
theorem c2_whitelist_amended_witness :
    wlPrefixOKList ["/r/abc/f.txt"] "/r"
      (build_tree_data ⟨none, false, [], false, none, none, false,
          some ["/r/abc/f.txt"]⟩ "/r"
        (FS.dir "root" true
          [FS.dir "ab" true [FS.file "x.txt" []],
           FS.dir "abc" true [FS.file "f.txt" []]])).childrenOf = true :=
  c2_whitelist_amended _ "/r" _ ["/r/abc/f.txt"] rfl

/-! ## Claim C4 -/

theorem applyCap_fst_length_le (m : Nat) (l : List FS) :
    (applyCap (some m) l).1.length ≤ m ∨ (applyCap (some m) l).1 = l := by
  rw [applyCap.eq_def]
  dsimp only
  split
  · left
    simp
  · right
    rfl

theorem list_entries_fst_length_le (d p : List String) (sa : Bool)
    (x : List String) (m : Nat) (nf lb : Bool) (entries : List FS) :
    (list_entries d p sa x (some m) nf lb entries).1.length ≤ m := by
  rw [list_entries]
  split
  · simp
  · rw [applyCap.eq_def]
    dsimp only
    split
    · simp
    · rename_i hgt
      simp only [gt_iff_lt, not_lt] at hgt
      exact hgt

theorem whitelistFilter_length_le (w : Option (List String)) (r : String)
    (d : List String) (l : List FS) :
    (whitelistFilter w r d l).length ≤ l.length := by
  rw [whitelistFilter.eq_def]
  cases w
  · exact Nat.le_refl _
  · exact List.length_filter_le _ _

theorem flatten_map_length_le (f : FS → List TreeNode) (sel : List FS)
    (h : ∀ e, (f e).length ≤ 1) :
    ((sel.map f).flatten).length ≤ sel.length := by
  induction sel with
  | nil => simp
  | cons a l ih =>
    rw [List.map_cons, List.flatten_cons, List.length_append, List.length_cons]
    have := h a
    omega

/-- Claim C4: with an item cap `m`, (1) the number of non-marker children
any directory node emits never exceeds `m`; (2) the entry lister's reported
truncation count is the true (filtered, sorted) child count minus the cap
when that count exceeds the cap and zero otherwise; (3) whenever a
directory's children are emitted, they are exactly a list of non-marker
nodes of length at most `m`, followed by a single truncation marker exactly
when the reported count is nonzero; and (4) concretely, four files under a
cap of 2 produce two file nodes and a marker reporting 2 more items, last. -/
theorem c4_item_cap (cfg : Config) (rootAbs : String) (m : Nat)
    (hm : cfg.max_items = some m) :
    (∀ fuel relPath curDepth patterns lb entries,
      ((recBuild cfg rootAbs fuel relPath curDepth patterns lb
          entries).filter (fun c => !c.isTruncated)).length ≤ m) ∧
    (∀ (d p : List String) (sa : Bool) (x : List String) (nf : Bool)
        (entries : List FS),
      (list_entries d p sa x (some m) nf true entries).2 =
        if (sortEntries (filterEntries d p sa x nf entries)).length > m
        then (sortEntries (filterEntries d p sa x nf entries)).length - m
        else 0) ∧
    (∀ fuel relPath curDepth patterns lb entries,
      depthReached cfg.depth curDepth = false →
      ∃ real : List TreeNode,
        recBuild cfg rootAbs (fuel + 1) relPath curDepth patterns lb entries =
          real ++
            (if (list_entries relPath
                (extendPatterns cfg.respect_gitignore cfg.gitignore_depth
                  relPath curDepth patterns entries)
                cfg.show_all cfg.extra_ignores cfg.max_items cfg.no_files lb
                entries).2 > 0
             then [TreeNode.truncated ("... and " ++
               toString (list_entries relPath
                 (extendPatterns cfg.respect_gitignore cfg.gitignore_depth
                   relPath curDepth patterns entries)
                 cfg.show_all cfg.extra_ignores cfg.max_items cfg.no_files lb
                 entries).2 ++ " more items")]
             else []) ∧
        (∀ c ∈ real, c.isTruncated = false) ∧ real.length ≤ m) ∧
    (build_tree_data ⟨none, false, [], false, none, some 2, false, none⟩ "/r"
        (FS.dir "root" true
          [FS.file "a" [], FS.file "b" [], FS.file "c" [], FS.file "d" []]) =
      TreeNode.dir "root"
        [TreeNode.file "a", TreeNode.file "b",
         TreeNode.truncated "... and 2 more items"]) := by
  have hkids : ∀ fuel relPath curDepth pats lb entries,
      (((whitelistFilter cfg.whitelist rootAbs relPath
        (list_entries relPath pats cfg.show_all cfg.extra_ignores
          cfg.max_items cfg.no_files lb entries).1).map (fun e =>
            match e with
            | FS.file n _ => [TreeNode.file n]
            | FS.dir n lb' cs =>
              [TreeNode.dir n (recBuild cfg rootAbs fuel (relPath ++ [n])
                (curDepth + 1) pats lb' cs)]
            | FS.other _ => [])).flatten).length ≤ m := by
    intro fuel relPath curDepth pats lb entries
    have h1 := flatten_map_length_le
      (fun e =>
        match e with
        | FS.file n _ => [TreeNode.file n]
        | FS.dir n lb' cs =>
          [TreeNode.dir n (recBuild cfg rootAbs fuel (relPath ++ [n])
            (curDepth + 1) pats lb' cs)]
        | FS.other _ => [])
      (whitelistFilter cfg.whitelist rootAbs relPath
        (list_entries relPath pats cfg.show_all cfg.extra_ignores
          cfg.max_items cfg.no_files lb entries).1)
      (by intro e; cases e <;> simp)
    have h2 := whitelistFilter_length_le cfg.whitelist rootAbs relPath
      (list_entries relPath pats cfg.show_all cfg.extra_ignores
        cfg.max_items cfg.no_files lb entries).1
    have h3 : (list_entries relPath pats cfg.show_all cfg.extra_ignores
        cfg.max_items cfg.no_files lb entries).1.length ≤ m := by
      rw [hm]
      exact list_entries_fst_length_le _ _ _ _ _ _ _ _
    omega
  refine ⟨?_, ?_, ?_, rfl⟩
  · intro fuel relPath curDepth patterns lb entries
    cases fuel with
    | zero => simp [recBuild]
    | succ f =>
      rw [recBuild]
      by_cases hd : depthReached cfg.depth curDepth = true
      · rw [if_pos hd]
        simp
      · rw [if_neg hd]
        dsimp only
        rw [List.filter_append]
        have hmarker : ∀ (k : Nat) (s : String),
            ((if k > 0 then [TreeNode.truncated s] else []).filter
              (fun c => !c.isTruncated)) = [] := by
          intro k s
          split <;> rfl
        rw [List.length_append, hmarker]
        have h4 := List.length_filter_le (fun c => !c.isTruncated)
          ((whitelistFilter cfg.whitelist rootAbs relPath
            (list_entries relPath
              (extendPatterns cfg.respect_gitignore cfg.gitignore_depth
                relPath curDepth patterns entries)
              cfg.show_all cfg.extra_ignores cfg.max_items cfg.no_files lb
              entries).1).map (fun e =>
                match e with
                | FS.file n _ => [TreeNode.file n]
                | FS.dir n lb' cs =>
                  [TreeNode.dir n (recBuild cfg rootAbs f (relPath ++ [n])
                    (curDepth + 1)
                    (extendPatterns cfg.respect_gitignore cfg.gitignore_depth
                      relPath curDepth patterns entries) lb' cs)]
                | FS.other _ => [])).flatten
        have h5 := hkids f relPath curDepth
          (extendPatterns cfg.respect_gitignore cfg.gitignore_depth relPath
            curDepth patterns entries) lb entries
        simp only [List.length_nil]
        omega
  · intro d p sa x nf entries
    rw [list_entries]
    simp only [Bool.not_true, Bool.false_eq_true, if_false]
    rw [applyCap.eq_def]
    dsimp only
    split <;> rfl
  · intro fuel relPath curDepth patterns lb entries hd
    rw [recBuild, if_neg (by simp [hd])]
    dsimp only
    refine ⟨_, rfl, ?_, ?_⟩
    · intro c hc
      rcases List.mem_flatten.mp hc with ⟨l, hl, hcl⟩
      rcases List.mem_map.mp hl with ⟨e, _, rfl⟩
      cases e with
      | file n lines =>
        rcases List.mem_singleton.mp hcl with rfl
        rfl
      | dir n lb' cs =>
        rcases List.mem_singleton.mp hcl with rfl
        rfl
      | other n => simp at hcl
    · exact hkids fuel relPath curDepth _ lb entries

/-- Witness for C4: the cap bound instantiated on the concrete
four-files-cap-2 directory. -/
theorem c4_item_cap_witness :
    ((recBuild ⟨none, false, [], false, none, some 2, false, none⟩ "/r" 1
        [] 0 [] true
        [FS.file "a" [], FS.file "b" [], FS.file "c" [], FS.file "d" []]).filter
      (fun c => !c.isTruncated)).length ≤ 2 :=
  (c4_item_cap ⟨none, false, [], false, none, some 2, false, none⟩ "/r" 2
    rfl).1 1 [] 0 [] true
    [FS.file "a" [], FS.file "b" [], FS.file "c" [], FS.file "d" []]

/-! ## Claim C1: character-level lemmas for a plain subdirectory name -/

theorem alnum_ne {c : Char} (h : c.isAlphanum = true) :
    c ≠ '.' ∧ c ≠ '/' ∧ c ≠ '*' ∧ c ≠ '?' := by
  refine ⟨?_, ?_, ?_, ?_⟩ <;> (intro he; subst he; exact absurd h (by decide))

theorem plainSeg_spec {s : String} (h : plainSeg s = true) :
    s.data ≠ [] ∧ ∀ c ∈ s.data, c.isAlphanum = true := by
  rw [plainSeg, Bool.and_eq_true] at h
  constructor
  · intro he
    rw [he] at h
    simp at h
  · intro c hc
    exact List.all_eq_true.mp h.2 c hc

theorem mem_of_getLast?_eq {l : List Char} {a : Char}
    (h : l.getLast? = some a) : a ∈ l := by
  induction l with
  | nil => simp at h
  | cons c cs ih =>
    rcases cs with _ | ⟨d, ds⟩
    · simp at h
      simp [h]
    · rw [List.getLast?_cons_cons] at h
      exact List.mem_cons_of_mem c (ih h)

theorem plain_not_hidden {s : String} (h : plainSeg s = true) :
    strStartsWith s "." = false := by
  rcases plainSeg_spec h with ⟨hne, hall⟩
  rw [strStartsWith]
  rcases hd : s.data with _ | ⟨c, cs⟩
  · exact absurd hd hne
  · show (('.' == c) && startsWithChars [] cs) = false
    have hc : c.isAlphanum = true := hall c (hd ▸ List.mem_cons_self c cs)
    have : c ≠ '.' := (alnum_ne hc).1
    simp [this]
    intro he
    exact absurd he.symm this

theorem splitSegs_noSlash {l : List Char} (h : ∀ c ∈ l, c ≠ '/') :
    splitSegs l = [l] := by
  induction l with
  | nil => rfl
  | cons c cs ih =>
    rw [splitSegs.eq_def]
    split
    · rename_i heq
      exact absurd heq (by simp)
    · rename_i rest heq
      injection heq with h1 h2
      exact absurd h1 (h c (List.mem_cons_self c cs))
    · rename_i c' rest heq
      injection heq with h1 h2
      subst h1
      subst h2
      rw [ih (fun d hd => h d (List.mem_cons_of_mem c hd))]

theorem splitSegs_append {a : List Char} (b : List Char)
    (h : ∀ c ∈ a, c ≠ '/') :
    splitSegs (a ++ '/' :: b) = a :: splitSegs b := by
  induction a with
  | nil => rfl
  | cons c cs ih =>
    show splitSegs (c :: (cs ++ '/' :: b)) = (c :: cs) :: splitSegs b
    rw [splitSegs.eq_def]
    split
    · rename_i heq
      exact absurd heq (by simp)
    · rename_i rest heq
      injection heq with h1 h2
      exact absurd h1 (h c (List.mem_cons_self c cs))
    · rename_i c' rest heq
      injection heq with h1 h2
      subst h1
      subst h2
      rw [ih (fun d hd => h d (List.mem_cons_of_mem c hd))]

theorem globMatch_self {l : List Char} (h : ∀ c ∈ l, c ≠ '*' ∧ c ≠ '?') :
    globMatch l l = true := by
  induction l with
  | nil => rfl
  | cons c cs ih =>
    have hc := h c (List.mem_cons_self c cs)
    rw [globMatch.eq_def]
    split
    · rename_i heq
      exact absurd heq (by simp)
    · rename_i ps heq
      injection heq with h1 h2
      exact absurd h1 hc.2
    · rename_i ps heq
      injection heq with h1 h2
      exact absurd h1 hc.1
    · rename_i c' ps heq
      injection heq with h1 h2
      subst h1
      subst h2
      show ((c == c) && globMatch cs cs) = true
      rw [ih (fun d hd => h d (List.mem_cons_of_mem c hd))]
      simp

theorem globMatch_star_dot_log {l : List Char} (h : ∀ c ∈ l, c ≠ '.') :
    globMatch ['*', '.', 'l', 'o', 'g'] l = false := by
  show l.tails.any (fun t => globMatch ['.', 'l', 'o', 'g'] t) = false
  apply List.any_eq_false.mpr
  intro t ht
  have hsub : t ⊆ l := (List.IsSuffix.subset ((List.mem_tails t l).mp ht))
  rcases t with _ | ⟨c, cs⟩
  · simp [globMatch]
  · have hc : c ≠ '.' := h c (hsub (List.mem_cons_self c cs))
    show ¬(('.' == c) && globMatch ['l', 'o', 'g'] cs) = true
    simp
    intro he
    exact absurd he.symm hc

theorem noSlash_getLast {l : List Char} (h : ∀ c ∈ l, c ≠ '/') :
    l.getLast? ≠ some '/' :=
  fun he => (h '/' (mem_of_getLast?_eq he)) rfl

theorem splitDirOnly_noSlashLast {l : List Char} (h : l.getLast? ≠ some '/') :
    splitDirOnly l = (false, l) :=
  if_neg (fun hand => h hand.2)

theorem splitDirOnly_concat (l : List Char) :
    splitDirOnly (l ++ ['/']) = (true, l) := by
  rw [splitDirOnly, if_pos ⟨by simp, List.getLast?_concat l⟩,
    List.dropLast_concat]

theorem c1_sub_not_ignored {s : String} (hs : plainSeg s = true) :
    isIgnored ["*.log"] s true = false := by
  rcases plainSeg_spec hs with ⟨hne, hall⟩
  have hnoslash : ∀ c ∈ s.data, c ≠ '/' := fun c hc => (alnum_ne (hall c hc)).2.1
  have hnodot : ∀ c ∈ s.data, c ≠ '.' := fun c hc => (alnum_ne (hall c hc)).1
  have hrm : ∀ d : Bool, ruleMatches (parseRule "*.log") [s.data] d = false := by
    intro d
    show (true && globMatch ['*', '.', 'l', 'o', 'g'] s.data) = false
    rw [Bool.true_and]
    exact globMatch_star_dot_log hnodot
  have h1 : match_file ["*.log"] s = false := by
    rw [match_file, splitDirOnly_noSlashLast (noSlash_getLast hnoslash),
      splitSegs_noSlash hnoslash]
    rw [evalRules, evalRules, hrm false]
    simp
  have h2 : match_file ["*.log"] (s ++ "/") = false := by
    rw [match_file]
    rw [show (s ++ "/").data = s.data ++ ['/'] from String.data_append s "/"]
    rw [splitDirOnly_concat, splitSegs_noSlash hnoslash]
    rw [evalRules, evalRules, hrm true]
    simp
  rw [isIgnored, h1, h2]
  rfl

theorem c1_keep_not_ignored {s : String} (hs : plainSeg s = true) :
    isIgnored ["*.log", "!" ++ ((s ++ "/") ++ "keep.log")]
      (joinSegs [s, "keep.log"]) false = false := by
  rcases plainSeg_spec hs with ⟨hne, hall⟩
  have hnoslash : ∀ c ∈ s.data, c ≠ '/' := fun c hc => (alnum_ne (hall c hc)).2.1
  have hnostar : ∀ c ∈ s.data, c ≠ '*' ∧ c ≠ '?' :=
    fun c hc => ⟨(alnum_ne (hall c hc)).2.2.1, (alnum_ne (hall c hc)).2.2.2⟩
  have hpath : (joinSegs [s, "keep.log"]).data =
      s.data ++ '/' :: "keep.log".data := by
    show (s ++ "/" ++ "keep.log").data = _
    rw [String.data_append, String.data_append]
    simp
  have hlast : (s.data ++ '/' :: "keep.log".data).getLast? = some 'g' := by
    rw [List.getLast?_append]
    rfl
  have hsegs : splitSegs (s.data ++ '/' :: "keep.log".data) =
      [s.data, "keep.log".data] := by
    rw [splitSegs_append _ hnoslash]
    rfl
  have hp2data : ("!" ++ ((s ++ "/") ++ "keep.log")).data =
      '!' :: (s.data ++ '/' :: "keep.log".data) := by
    rw [String.data_append, String.data_append, String.data_append]
    simp
  have hpr2 : parseRule ("!" ++ ((s ++ "/") ++ "keep.log")) =
      ⟨true, false, [s.data, "keep.log".data]⟩ := by
    rw [parseRule, hp2data]
    rw [show splitNeg ('!' :: (s.data ++ '/' :: "keep.log".data)) =
      (true, s.data ++ '/' :: "keep.log".data) from rfl]
    rw [splitDirOnly_noSlashLast (by rw [hlast]; decide), hsegs]
  have hrm2 : ruleMatches ⟨true, false, [s.data, "keep.log".data]⟩
      [s.data, "keep.log".data] false = true := by
    show (true && segsMatch [s.data, "keep.log".data]
      [s.data, "keep.log".data]) = true
    rw [Bool.true_and, segsMatch.eq_def]
    split
    · rename_i heq
      exact absurd heq (by simp)
    · rename_i p ps heq
      injection heq with h1 h2
      subst h1
      subst h2
      rw [if_neg ?hne2]
      case hne2 =>
        intro he
        exact absurd rfl ((hnostar '*' (he ▸ List.mem_cons_self '*' ['*'])).1)
      show (globMatch s.data s.data &&
        segsMatch ["keep.log".data] ["keep.log".data]) = true
      rw [globMatch_self hnostar]
      rfl
  rw [isIgnored]
  have h1 : match_file ["*.log", "!" ++ ((s ++ "/") ++ "keep.log")]
      (joinSegs [s, "keep.log"]) = false := by
    rw [match_file, hpath, splitDirOnly_noSlashLast (by rw [hlast]; decide),
      hsegs]
    rw [evalRules, evalRules, evalRules]
    rw [show ruleMatches (parseRule "*.log") [s.data, "keep.log".data] false =
      true from rfl]
    rw [hpr2, hrm2]
    simp
  rw [h1]
  rfl

/-- Claim C1: for every root (of any name, any absolute path) containing a
`.gitignore` with the line `*.log` and a file `keep.log`, and a
subdirectory of any plain (nonempty alphanumeric) name with its own
`.gitignore` containing `!keep.log` and its own `keep.log`, building the
tree with gitignore matching enabled keeps `keep.log` inside the
subdirectory (the deeper rule is rewritten root-relative, appended after
the shallower rule, and wins as the last match) while the root-level
`keep.log` is ignored. -/
theorem c1_nested_gitignore (rootName s rootAbs : String)
    (hs : plainSeg s = true) :
    build_tree_data ⟨none, false, [], true, none, none, false, none⟩ rootAbs
      (c1FS rootName s) =
      TreeNode.dir rootName [TreeNode.dir s [TreeNode.file "keep.log"]] := by
  have hfe2 : filterEntries [s] ["*.log", "!" ++ ((s ++ "/") ++ "keep.log")]
      false [] false
      [FS.file ".gitignore" ["!keep.log"], FS.file "keep.log" []] =
      [FS.file "keep.log" []] := by
    rw [filterEntries, hiddenStep, if_neg (by decide)]
    rw [List.filter_cons_of_neg (by decide),
      List.filter_cons_of_pos (by decide), List.filter_nil]
    rw [ignoreStep, List.filter_cons_of_pos ?hk, List.filter_nil]
    case hk =>
      show (!isIgnored ["*.log", "!" ++ ((s ++ "/") ++ "keep.log")]
        (joinSegs ([s] ++ ["keep.log"])) false) = true
      rw [show joinSegs ([s] ++ ["keep.log"]) = joinSegs [s, "keep.log"] from rfl]
      rw [c1_keep_not_ignored hs]
      rfl
    rw [extraStep, List.filter_cons_of_pos rfl, List.filter_nil]
    rfl
  have hle2 : list_entries [s]
      (extendPatterns true none [s] 1 ["*.log"]
        [FS.file ".gitignore" ["!keep.log"], FS.file "keep.log" []])
      false [] none false true
      [FS.file ".gitignore" ["!keep.log"], FS.file "keep.log" []] =
      ([FS.file "keep.log" []], 0) := by
    rw [list_entries, if_neg (by decide)]
    rw [show extendPatterns true none [s] 1 ["*.log"]
        [FS.file ".gitignore" ["!keep.log"], FS.file "keep.log" []] =
      ["*.log", "!" ++ ((s ++ "/") ++ "keep.log")] from rfl]
    rw [hfe2]
    rfl
  have hsub : recBuild ⟨none, false, [], true, none, none, false, none⟩
      rootAbs (0 + 1) [s] 1 ["*.log"] true
      [FS.file ".gitignore" ["!keep.log"], FS.file "keep.log" []] =
      [TreeNode.file "keep.log"] := by
    rw [recBuild, if_neg (by decide)]
    dsimp only
    rw [hle2]
    rfl
  have hfe1 : filterEntries [] ["*.log"] false [] false
      [FS.file ".gitignore" ["*.log"], FS.file "keep.log" [],
        FS.dir s true
          [FS.file ".gitignore" ["!keep.log"], FS.file "keep.log" []]] =
      [FS.dir s true
        [FS.file ".gitignore" ["!keep.log"], FS.file "keep.log" []]] := by
    rw [filterEntries, hiddenStep, if_neg (by decide)]
    rw [List.filter_cons_of_neg (by decide),
      List.filter_cons_of_pos (by decide),
      List.filter_cons_of_pos ?hd, List.filter_nil]
    case hd =>
      show (!strStartsWith s ".") = true
      rw [plain_not_hidden hs]
      rfl
    rw [ignoreStep, List.filter_cons_of_neg (by decide),
      List.filter_cons_of_pos ?hds, List.filter_nil]
    case hds =>
      show (!isIgnored ["*.log"] (joinSegs ([] ++ [s])) true) = true
      rw [show joinSegs ([] ++ [s]) = s from rfl, c1_sub_not_ignored hs]
      rfl
    rw [extraStep, List.filter_cons_of_pos ?hx, List.filter_nil]
    case hx => rfl
    rfl
  have hle1 : list_entries []
      (extendPatterns true none [] 0 []
        [FS.file ".gitignore" ["*.log"], FS.file "keep.log" [],
          FS.dir s true
            [FS.file ".gitignore" ["!keep.log"], FS.file "keep.log" []]])
      false [] none false true
      [FS.file ".gitignore" ["*.log"], FS.file "keep.log" [],
        FS.dir s true
          [FS.file ".gitignore" ["!keep.log"], FS.file "keep.log" []]] =
      ([FS.dir s true
        [FS.file ".gitignore" ["!keep.log"], FS.file "keep.log" []]], 0) := by
    rw [list_entries, if_neg (by decide)]
    rw [show extendPatterns true none [] 0 []
        [FS.file ".gitignore" ["*.log"], FS.file "keep.log" [],
          FS.dir s true
            [FS.file ".gitignore" ["!keep.log"], FS.file "keep.log" []]] =
      ["*.log"] from rfl]
    rw [hfe1]
    rfl
  show TreeNode.dir rootName
    (recBuild ⟨none, false, [], true, none, none, false, none⟩ rootAbs
      (1 + 1) [] 0 [] true
      [FS.file ".gitignore" ["*.log"], FS.file "keep.log" [],
        FS.dir s true
          [FS.file ".gitignore" ["!keep.log"], FS.file "keep.log" []]]) =
    TreeNode.dir rootName [TreeNode.dir s [TreeNode.file "keep.log"]]
  congr 1
  rw [recBuild, if_neg (by decide)]
  dsimp only
  rw [hle1]
  show [TreeNode.dir s
    (recBuild ⟨none, false, [], true, none, none, false, none⟩ rootAbs
      (0 + 1) [s] 1 ["*.log"] true
      [FS.file ".gitignore" ["!keep.log"], FS.file "keep.log" []])] =
    [TreeNode.dir s [TreeNode.file "keep.log"]]
  rw [hsub]

/-- Witness for C1 at the concrete subdirectory name `sub`. -/
theorem c1_nested_gitignore_witness :
    build_tree_data ⟨none, false, [], true, none, none, false, none⟩ "/r"
      (c1FS "root" "sub") =
      TreeNode.dir "root" [TreeNode.dir "sub" [TreeNode.file "keep.log"]] :=
  c1_nested_gitignore "root" "sub" "/r" (by decide)

/-! ## Claim C9: parser correctness on rendered output -/

theorem skipWs_append_ws {ws : List Char} (l : List Char)
    (h : ∀ c ∈ ws, isJsonWs c = true) : skipWs (ws ++ l) = skipWs l := by
  induction ws with
  | nil => rfl
  | cons c cs ih =>
    rw [List.cons_append, skipWs, List.dropWhile_cons_of_pos
      (h c (List.mem_cons_self c cs))]
    exact ih (fun d hd => h d (List.mem_cons_of_mem c hd))

theorem skipWs_cons_not {c : Char} (l : List Char)
    (h : isJsonWs c = false) : skipWs (c :: l) = c :: l := by
  rw [skipWs, List.dropWhile_cons_of_neg (by simp [h])]

theorem nlIndent_ws (k : Nat) : ∀ c ∈ nlIndent k, isJsonWs c = true := by
  intro c hc
  rw [nlIndent] at hc
  rcases List.mem_cons.mp hc with rfl | hc
  · rfl
  · rw [List.eq_of_mem_replicate hc]
    rfl

theorem hexVal_hexDig : ∀ n < 16, hexVal (hexDig n) = some n := by decide


theorem psb_cons_other {c : Char} (l : List Char) (h1 : c ≠ '"')
    (h2 : c ≠ '\\') :
    parseStringBody (c :: l) =
      (match parseStringBody l with
       | some (out, r) => some (c :: out, r)
       | none => none) := by
  rw [parseStringBody.eq_def]
  split
  · rename_i heq
    exact absurd heq (by simp)
  · rename_i rest heq
    injection heq with ha hb
    exact absurd ha h1
  · rename_i rest heq
    injection heq with ha hb
    exact absurd ha h2
  · rename_i c' rest heq
    injection heq with ha hb
    subst ha
    subst hb
    rfl

theorem parseStringBody_escape : ∀ (l : List Char) (rest : List Char),
    parseStringBody ((l.map escapeChar).flatten ++ '"' :: rest) =
      some (l, rest) := by
  intro l
  induction l with
  | nil => intro rest; rfl
  | cons c l ih =>
    intro rest
    rw [List.map_cons, List.flatten_cons, List.append_assoc]
    rw [escapeChar]
    by_cases h1 : c = '"'
    · subst h1
      rw [if_pos rfl]
      show parseStringBody ('\\' :: '"' :: _) = _
      rw [parseStringBody]
      · rw [show ([] : List Char).append ((l.map escapeChar).flatten ++ '"' :: rest) =
            (l.map escapeChar).flatten ++ '\"' :: rest from rfl, ih]
        rfl
      · intro a b c d e h he
        exact absurd h (by decide)
    · rw [if_neg h1]
      by_cases h2 : c = '\\'
      · subst h2
        rw [if_pos rfl]
        show parseStringBody ('\\' :: '\\' :: _) = _
        rw [parseStringBody]
        · rw [show ([] : List Char).append ((l.map escapeChar).flatten ++ '"' :: rest) =
              (l.map escapeChar).flatten ++ '\"' :: rest from rfl, ih]
          rfl
        · intro a b c d e h he
          exact absurd h (by decide)
      · rw [if_neg h2]
        by_cases h3 : c = '\n'
        · subst h3
          rw [if_pos rfl]
          show parseStringBody ('\\' :: 'n' :: _) = _
          rw [parseStringBody]
          · rw [show ([] : List Char).append ((l.map escapeChar).flatten ++ '"' :: rest) =
                (l.map escapeChar).flatten ++ '\"' :: rest from rfl, ih]
            rfl
          · intro a b c d e h he
            exact absurd h (by decide)
        · rw [if_neg h3]
          by_cases h4 : c = '\t'
          · subst h4
            rw [if_pos rfl]
            show parseStringBody ('\\' :: 't' :: _) = _
            rw [parseStringBody]
            · rw [show ([] : List Char).append ((l.map escapeChar).flatten ++ '"' :: rest) =
                  (l.map escapeChar).flatten ++ '\"' :: rest from rfl, ih]
              rfl
            · intro a b c d e h he
              exact absurd h (by decide)
          · rw [if_neg h4]
            by_cases h5 : c = '\r'
            · subst h5
              rw [if_pos rfl]
              show parseStringBody ('\\' :: 'r' :: _) = _
              rw [parseStringBody]
              · rw [show ([] : List Char).append ((l.map escapeChar).flatten ++ '"' :: rest) =
                    (l.map escapeChar).flatten ++ '\"' :: rest from rfl, ih]
                rfl
              · intro a b c d e h he
                exact absurd h (by decide)
            · rw [if_neg h5]
              by_cases h6 : c = Char.ofNat 8
              · subst h6
                rw [if_pos rfl]
                show parseStringBody ('\\' :: 'b' :: _) = _
                rw [parseStringBody]
                · rw [show ([] : List Char).append ((l.map escapeChar).flatten ++ '"' :: rest) =
                      (l.map escapeChar).flatten ++ '\"' :: rest from rfl, ih]
                  rfl
                · intro a b c d e h he
                  exact absurd h (by decide)
              · rw [if_neg h6]
                by_cases h7 : c = Char.ofNat 12
                · subst h7
                  rw [if_pos rfl]
                  show parseStringBody ('\\' :: 'f' :: _) = _
                  rw [parseStringBody]
                  · rw [show ([] : List Char).append ((l.map escapeChar).flatten ++ '"' :: rest) =
                        (l.map escapeChar).flatten ++ '\"' :: rest from rfl, ih]
                    rfl
                  · intro a b c d e h he
                    exact absurd h (by decide)
                · rw [if_neg h7]
                  by_cases h8 : c.toNat < 32
                  · rw [if_pos h8]
                    show parseStringBody
                      ('\\' :: 'u' :: '0' :: '0' :: hexDig (c.toNat / 16) ::
                        hexDig (c.toNat % 16) :: _) = _
                    rw [parseStringBody]
                    rw [hexVal_hexDig (c.toNat / 16) (by omega),
                      hexVal_hexDig (c.toNat % 16) (by omega)]
                    rw [show hexVal '0' = some 0 from rfl]
                    rw [show ([] : List Char).append
                      ((l.map escapeChar).flatten ++ '"' :: rest) =
                      (l.map escapeChar).flatten ++ '"' :: rest from rfl, ih]
                    show some (Char.ofNat (((0 * 16 + 0) * 16 +
                      c.toNat / 16) * 16 + c.toNat % 16) :: l, rest) =
                      some (c :: l, rest)
                    have hn : ((0 * 16 + 0) * 16 + c.toNat / 16) * 16 +
                        c.toNat % 16 = c.toNat := by omega
                    rw [hn, Char.ofNat_toNat]
                  · rw [if_neg h8]
                    rw [show ([c] ++ ((l.map escapeChar).flatten ++ '"' :: rest)) =
                      c :: ((l.map escapeChar).flatten ++ '"' :: rest) from rfl]
                    rw [psb_cons_other _ h1 h2, ih]

theorem string_mk_data (s : String) : String.mk s.data = s := rfl

theorem renderString_append (s : String) (x : List Char) :
    renderString s ++ x =
      '"' :: ((s.data.map escapeChar).flatten ++ '"' :: x) := by
  rw [renderString]
  simp [List.append_assoc]

theorem renderVal_head (v : JsonVal) (k : Nat) :
    ∃ c cs', renderVal v k = c :: cs' ∧ isJsonWs c = false ∧
      c ≠ ']' ∧ c ≠ rbrace := by
  cases v with
  | str s => exact ⟨'"', _, rfl, by decide, by decide, by decide⟩
  | arr xs =>
    cases xs with
    | nil => exact ⟨'[', _, rfl, by decide, by decide, by decide⟩
    | cons x xs => exact ⟨'[', _, rfl, by decide, by decide, by decide⟩
  | obj kvs =>
    cases kvs with
    | nil => exact ⟨lbrace, _, rfl, by decide, by decide, by decide⟩
    | cons kv kvs =>
      rcases kv with ⟨key, v⟩
      exact ⟨lbrace, _, rfl, by decide, by decide, by decide⟩

theorem jsize_pos (v : JsonVal) : 1 ≤ jsize v := by
  cases v with
  | str s => exact Nat.le_refl 1
  | arr xs => rw [jsize]; omega
  | obj kvs => rw [jsize]; omega

set_option maxHeartbeats 1000000 in
theorem parse_render : ∀ fuel : Nat,
    (∀ (v : JsonVal) (k : Nat) (ws rest : List Char),
      (∀ c ∈ ws, isJsonWs c = true) → jsize v ≤ fuel →
      parseVal fuel (ws ++ (renderVal v k ++ rest)) = some (v, rest)) ∧
    (∀ (x : JsonVal) (xs : List JsonVal) (k kc : Nat) (rest : List Char),
      jsizeL (x :: xs) ≤ fuel →
      parseArrItems fuel (nlIndent k ++ (renderVal x k ++ (renderArrRest k xs ++
        (nlIndent kc ++ (']' :: rest))))) = some (x :: xs, rest)) ∧
    (∀ (key : String) (v : JsonVal) (kvs : List (String × JsonVal))
        (k kc : Nat) (rest : List Char),
      jsizeKV ((key, v) :: kvs) ≤ fuel →
      parseObjItems fuel (nlIndent k ++ (renderString key ++ (':' :: (' ' ::
        (renderVal v k ++ (renderObjRest k kvs ++ (nlIndent kc ++
          (rbrace :: rest)))))))) = some ((key, v) :: kvs, rest)) := by
  intro fuel
  induction fuel with
  | zero =>
    refine ⟨fun v _ _ _ _ hs => absurd hs (by have := jsize_pos v; omega),
      fun x xs _ _ _ hs => absurd hs (by rw [jsizeL]; omega),
      fun key v kvs _ _ _ hs => absurd hs (by rw [jsizeKV]; omega)⟩
  | succ fuel ih =>
    obtain ⟨ih1, ih2, ih3⟩ := ih
    refine ⟨?_, ?_, ?_⟩
    · -- parseVal
      intro v k ws rest hws hsize
      rw [parseVal]
      cases v with
      | str s =>
        rw [renderVal, renderString_append, skipWs_append_ws _ hws,
          skipWs_cons_not _ (by decide)]
        dsimp only
        rw [if_pos rfl, parseStringBody_escape]
      | arr xs =>
        cases xs with
        | nil =>
          rw [renderVal, show (['[', ']'] ++ rest : List Char) = '[' :: ']' :: rest from rfl,
            skipWs_append_ws _ hws, skipWs_cons_not _ (by decide)]
          dsimp only
          rw [if_neg (by decide), if_pos rfl, skipWs_cons_not _ (by decide)]
          rfl
        | cons x xs =>
          rw [renderVal]
          simp only [List.append_assoc, List.cons_append, List.nil_append]
          rw [skipWs_append_ws _ hws, skipWs_cons_not _ (by decide)]
          dsimp only
          rw [if_neg (by decide), if_pos rfl]
          obtain ⟨c, cs', hc, hcws, hcbr, _⟩ := renderVal_head x (k + 1)
          have hsk : skipWs (nlIndent (k + 1) ++ (renderVal x (k + 1) ++
              (renderArrRest (k + 1) xs ++ (nlIndent k ++ ']' :: rest)))) =
              c :: (cs' ++ (renderArrRest (k + 1) xs ++ (nlIndent k ++ ']' :: rest))) := by
            rw [skipWs_append_ws _ (nlIndent_ws (k + 1)), hc, List.cons_append,
              skipWs_cons_not _ hcws]
          rw [hsk]
          split
          · rename_i r2 heq
            injection heq with h1 _
            exact absurd h1 hcbr
          · rw [ih2 x xs (k + 1) k rest (by
              rw [jsize] at hsize; omega)]
      | obj kvs =>
        cases kvs with
        | nil =>
          rw [renderVal, show ([lbrace, rbrace] ++ rest : List Char) =
              lbrace :: rbrace :: rest from rfl,
            skipWs_append_ws _ hws, skipWs_cons_not _ (by decide)]
          dsimp only
          rw [if_neg (by decide), if_neg (by decide), if_pos rfl,
            skipWs_cons_not _ (by decide)]
          dsimp only
          rw [if_pos rfl]
        | cons kv kvs =>
          obtain ⟨key, v⟩ := kv
          rw [renderVal]
          simp only [List.append_assoc, List.cons_append, List.nil_append]
          rw [skipWs_append_ws _ hws, skipWs_cons_not _ (by decide)]
          dsimp only
          rw [if_neg (by decide), if_neg (by decide), if_pos rfl]
          have hsk : skipWs (nlIndent (k + 1) ++ (renderString key ++ ':' :: ' ' ::
              (renderVal v (k + 1) ++ (renderObjRest (k + 1) kvs ++
                (nlIndent k ++ rbrace :: rest))))) =
              '"' :: ((key.data.map escapeChar).flatten ++ '"' :: (':' :: ' ' ::
                (renderVal v (k + 1) ++ (renderObjRest (k + 1) kvs ++
                  (nlIndent k ++ rbrace :: rest))))) := by
            rw [skipWs_append_ws _ (nlIndent_ws (k + 1)), renderString_append,
              skipWs_cons_not _ (by decide)]
          rw [hsk]
          dsimp only
          rw [if_neg (by decide)]
          rw [ih3 key v kvs (k + 1) k rest (by rw [jsize] at hsize; omega)]
    · -- parseArrItems
      intro x xs k kc rest hsize
      rw [parseArrItems]
      rw [show (nlIndent k ++ (renderVal x k ++ (renderArrRest k xs ++
          (nlIndent kc ++ ']' :: rest)))) = nlIndent k ++ (renderVal x k ++
          (renderArrRest k xs ++ (nlIndent kc ++ (']' :: rest)))) from rfl]
      rw [ih1 x k (nlIndent k) _ (nlIndent_ws k) (by rw [jsizeL] at hsize; omega)]
      dsimp only
      cases xs with
      | nil =>
        rw [renderArrRest, List.nil_append, skipWs_append_ws _ (nlIndent_ws kc),
          skipWs_cons_not _ (by decide)]
        dsimp only
        rw [if_neg (by decide), if_pos rfl]
      | cons y ys =>
        rw [renderArrRest]
        simp only [List.append_assoc, List.cons_append]
        rw [skipWs_cons_not _ (by decide)]
        dsimp only
        rw [if_pos rfl]
        rw [ih2 y ys k kc rest (by rw [jsizeL, jsizeL] at hsize; rw [jsizeL]; omega)]
    · -- parseObjItems
      intro key v kvs k kc rest hsize
      rw [parseObjItems]
      have hsk : skipWs (nlIndent k ++ (renderString key ++ (':' :: (' ' ::
          (renderVal v k ++ (renderObjRest k kvs ++ (nlIndent kc ++
            (rbrace :: rest)))))))) =
          '"' :: ((key.data.map escapeChar).flatten ++ '"' :: (':' :: (' ' ::
            (renderVal v k ++ (renderObjRest k kvs ++ (nlIndent kc ++
              (rbrace :: rest))))))) := by
        rw [skipWs_append_ws _ (nlIndent_ws k), renderString_append,
          skipWs_cons_not _ (by decide)]
      rw [hsk]
      dsimp only
      rw [if_pos rfl, parseStringBody_escape]
      dsimp only
      rw [skipWs_cons_not _ (by decide)]
      dsimp only
      rw [if_pos rfl]
      rw [show (' ' :: (renderVal v k ++ (renderObjRest k kvs ++ (nlIndent kc ++
          (rbrace :: rest))))) = [' '] ++ (renderVal v k ++ (renderObjRest k kvs ++
          (nlIndent kc ++ (rbrace :: rest)))) from rfl]
      rw [ih1 v k [' '] _ (by intro c hc; simp at hc; subst hc; rfl)
        (by rw [jsizeKV] at hsize; dsimp only at hsize; omega)]
      dsimp only
      cases kvs with
      | nil =>
        rw [renderObjRest, List.nil_append, skipWs_append_ws _ (nlIndent_ws kc),
          skipWs_cons_not _ (by decide)]
        dsimp only
        rw [if_neg (by decide), if_pos rfl, string_mk_data]
      | cons kv2 kvs2 =>
        obtain ⟨key2, v2⟩ := kv2
        rw [renderObjRest]
        simp only [List.append_assoc, List.cons_append]
        rw [skipWs_cons_not _ (by decide)]
        dsimp only
        rw [if_pos rfl]
        rw [ih3 key2 v2 kvs2 k kc rest (by rw [jsizeKV, jsizeKV] at hsize; rw [jsizeKV]; dsimp only at hsize ⊢; omega),
          string_mk_data]

theorem jsize_le_render : ∀ n : Nat,
    (∀ (v : JsonVal) (k : Nat), jsize v ≤ n →
      jsize v ≤ (renderVal v k).length) ∧
    (∀ (xs : List JsonVal) (k : Nat), jsizeL xs ≤ n →
      jsizeL xs ≤ (renderArrRest k xs).length) ∧
    (∀ (kvs : List (String × JsonVal)) (k : Nat), jsizeKV kvs ≤ n →
      jsizeKV kvs ≤ (renderObjRest k kvs).length) := by
  intro n
  induction n with
  | zero =>
    refine ⟨fun v _ hs => absurd hs (by have := jsize_pos v; omega), ?_, ?_⟩
    · intro xs k hs
      cases xs with
      | nil => rw [jsizeL]; omega
      | cons x xs => rw [jsizeL] at hs; omega
    · intro kvs k hs
      cases kvs with
      | nil => rw [jsizeKV]; omega
      | cons kv kvs => rw [jsizeKV] at hs; omega
  | succ n ih =>
    obtain ⟨ih1, ih2, ih3⟩ := ih
    refine ⟨?_, ?_, ?_⟩
    · intro v k hs
      cases v with
      | str s =>
        rw [jsize, renderVal]
        simp only [renderString, List.length_append, List.length_cons]
        omega
      | arr xs =>
        cases xs with
        | nil => rw [renderVal]; decide
        | cons x xs =>
          rw [jsize, jsizeL] at hs ⊢
          rw [renderVal]
          simp only [List.length_cons, List.length_append]
          have h1 := ih1 x (k + 1) (by omega)
          have h2 := ih2 xs (k + 1) (by omega)
          omega
      | obj kvs =>
        cases kvs with
        | nil => rw [renderVal]; decide
        | cons kv kvs =>
          obtain ⟨key, v⟩ := kv
          rw [jsize, jsizeKV] at hs ⊢
          dsimp only at hs ⊢
          rw [renderVal]
          simp only [List.length_cons, List.length_append]
          have h1 := ih1 v (k + 1) (by omega)
          have h2 := ih3 kvs (k + 1) (by omega)
          omega
    · intro xs k hs
      cases xs with
      | nil => rw [jsizeL]; omega
      | cons x xs =>
        rw [jsizeL] at hs ⊢
        rw [renderArrRest]
        simp only [List.length_cons, List.length_append]
        have h1 := ih1 x k (by omega)
        have h2 := ih2 xs k (by omega)
        omega
    · intro kvs k hs
      cases kvs with
      | nil => rw [jsizeKV]; omega
      | cons kv kvs =>
        obtain ⟨key, v⟩ := kv
        rw [jsizeKV] at hs ⊢
        dsimp only at hs ⊢
        rw [renderObjRest]
        simp only [List.length_cons, List.length_append]
        have h1 := ih1 v k (by omega)
        have h2 := ih3 kvs k (by omega)
        omega

theorem toJson_readback : ∀ n : Nat,
    (∀ t : TreeNode, tsize t ≤ n → jsonToTree (toJson t) = some t) ∧
    (∀ ts : List TreeNode, tsizeL ts ≤ n →
      jsonToTreeList (toJsonList ts) = some ts) := by
  intro n
  induction n with
  | zero =>
    refine ⟨?_, ?_⟩
    · intro t hs
      cases t with
      | file n => rw [tsize] at hs; omega
      | truncated n => rw [tsize] at hs; omega
      | dir n cs => rw [tsize] at hs; omega
    · intro ts hs
      cases ts with
      | nil => rfl
      | cons t ts => rw [tsizeL] at hs; omega
  | succ n ih =>
    obtain ⟨ih1, ih2⟩ := ih
    refine ⟨?_, ?_⟩
    · intro t hs
      cases t with
      | file n => rfl
      | truncated n => rfl
      | dir n cs =>
        rw [tsize] at hs
        rw [toJson]
        rw [show jsonToTree (JsonVal.obj [("name", .str n),
            ("type", .str "directory"),
            ("children", .arr (toJsonList cs))]) =
          (match jsonToTreeList (toJsonList cs) with
           | some cs' => some (.dir n cs')
           | none => none) from rfl]
        rw [ih2 cs (by omega)]
    · intro ts hs
      cases ts with
      | nil => rfl
      | cons t ts =>
        rw [tsizeL] at hs
        rw [toJsonList, jsonToTreeList, ih1 t (by omega), ih2 ts (by omega)]

/-- Claim C9: serializing a built tree with `format_json` and re-parsing
the string reproduces the same names, kinds and child ordering: reading
the parsed document back as a tree yields the original node exactly. -/
theorem c9_json_roundtrip (t : TreeNode) :
    (json_loads (format_json t)).bind jsonToTree = some t := by
  have hsz : jsize (toJson t) ≤
      (String.mk (renderVal (toJson t) 0)).length + 1 := by
    have h := (jsize_le_render (jsize (toJson t))).1 (toJson t) 0 (Nat.le_refl _)
    have hl : (String.mk (renderVal (toJson t) 0)).length =
        (renderVal (toJson t) 0).length := rfl
    omega
  have hp := (parse_render ((String.mk (renderVal (toJson t) 0)).length + 1)).1
    (toJson t) 0 [] [] (by intro c hc; cases hc) hsz
  rw [List.nil_append, List.append_nil] at hp
  rw [format_json, json_loads]
  rw [show (String.mk (renderVal (toJson t) 0)).data =
    renderVal (toJson t) 0 from rfl]
  rw [hp]
  exact (toJson_readback (tsize t)).1 t (Nat.le_refl _)
end Gitree
